import Mathlib

/-!
Verification of the Basecamp team-orchestration module
(`src-tauri/src/commands/team.rs`) against its natural-language
specification.

The Rust module is shallowly embedded below:

* pure Rust helpers become Lean functions on `String` / `List Char`
  (Rust `str::trim` is modelled character-exactly by `trimChars`),
* `serde_json` values are modelled by the deep `Json` type together with a
  compact printer mirroring `serde_json::to_string` and an executable parser,
* the journal file is modelled as its character stream (`List Char`),
* filesystem state touched by the tool sandbox is an association of
  canonical path components to file contents; paths use Unix separator
  semantics (`/` separates components, `\` is an ordinary file-name
  character),
* the external chat-completion service is an explicit oracle argument
  (a list of scripted responses), and fallible operations return `Except`.

Machine integers (`u8`, `i64`) are modelled as `Nat` / `Int`; no claim under
verification depends on wrap-around behaviour.
-/

namespace Basecamp

/-! ## Character-level utilities (model of `str::trim` and `str::contains`) -/

/-- Whitespace test used by the model of Rust `str::trim` (ASCII subset of
`char::is_whitespace`; the identifier characters the validators inspect are
never whitespace in either reading). -/
def wsChar (c : Char) : Bool :=
  c = ' ' || c = '\t' || c = '\n' || c = '\r'

/-- Drop whitespace from the end of a character list. -/
def trimEnd (l : List Char) : List Char :=
  (l.reverse.dropWhile wsChar).reverse

/-- Model of Rust `str::trim` on a character list. -/
def trimChars (l : List Char) : List Char :=
  trimEnd (l.dropWhile wsChar)

/-- Model of Rust `str::trim` on a `String`. -/
def rustTrim (s : String) : String :=
  ⟨trimChars s.data⟩

/-- Executable substring test: does `pat` occur contiguously inside `l`?
Model of Rust `str::contains` for a string pattern. -/
def hasSub (pat l : List Char) : Bool :=
  match l with
  | [] => pat.isEmpty
  | _ :: rest => pat.isPrefixOf l || hasSub pat rest

/-- Model of Rust `str::contains` for a `char` pattern. -/
def hasChar (c : Char) (s : String) : Bool :=
  s.data.contains c

/-- Substring test lifted to `String`. -/
def hasSubStr (pat s : String) : Bool :=
  hasSub pat.data s.data

/-! ## `validate_simple_identifier` -/

/-- Model of `validate_simple_identifier`: trim the input, require it
non-empty, and reject any occurrence of `/`, `\` or the substring `..`. -/
def validate_simple_identifier (value : String) (field_name : String) :
    Except String String :=
  let trimmed := rustTrim value
  if trimmed.data.isEmpty then
    .error (field_name ++ " is required.")
  else if trimmed.data.contains '/' || trimmed.data.contains '\\'
      || hasSub ['.', '.'] trimmed.data then
    .error (field_name ++ " must not contain path separators or traversal segments.")
  else
    .ok trimmed

/-! ## Team configuration model -/

/-- The slice of the camp configuration the team module reads. -/
structure CampConfig where
  model : String
  is_team : Bool
deriving Repr, DecidableEq

structure TeamAgentConfig where
  id : String
  role : String
  model : String
  tool_subset : List String
  description : String
deriving Repr, DecidableEq

structure TeamConfig where
  is_team : Bool
  supervisor_model : String
  agents : List TeamAgentConfig
  reflection_loops : Bool
  max_reflection_rounds : Nat
deriving Repr, DecidableEq

structure TeamSettingsUpdateInput where
  supervisor_model : String
  reflection_loops : Bool
  max_reflection_rounds : Nat
deriving Repr, DecidableEq

/-- `TEAM_DEFAULT_MAX_REFLECTION_ROUNDS`. -/
def TEAM_DEFAULT_MAX_REFLECTION_ROUNDS : Nat := 2

/-- `TEAM_MAX_AGENTS`. -/
def TEAM_MAX_AGENTS : Nat := 8

/-- `TEAM_MAX_TOOL_LOOPS`. -/
def TEAM_MAX_TOOL_LOOPS : Nat := 6

/-- Model of Rust `char::to_ascii_lowercase`. -/
def asciiLower (c : Char) : Char :=
  if 'A' ≤ c ∧ c ≤ 'Z' then Char.ofNat (c.toNat + 32) else c

/-- Lowercase every character of a string (model of `str::to_ascii_lowercase`). -/
def strAsciiLower (s : String) : String :=
  ⟨s.data.map asciiLower⟩

/-- Model of `normalize_tool_subset`: trim and lowercase each name, drop the
empty ones and keep the first occurrence of each distinct name. -/
def normalize_tool_subset (values : List String) : List String :=
  let step := fun (acc : List String × List String) (raw : String) =>
    let normalized := strAsciiLower (rustTrim raw)
    if normalized.data.isEmpty then acc
    else if acc.2.contains normalized then acc
    else (acc.1 ++ [normalized], acc.2 ++ [normalized])
  (values.foldl step ([], [])).1

/-- Model of `normalize_team_config`. -/
def normalize_team_config (team_config : TeamConfig) (camp_config : CampConfig) :
    TeamConfig :=
  let supervisor_model :=
    if (rustTrim team_config.supervisor_model).data.isEmpty then camp_config.model
    else team_config.supervisor_model
  let rounds0 :=
    if team_config.max_reflection_rounds = 0 then TEAM_DEFAULT_MAX_REFLECTION_ROUNDS
    else team_config.max_reflection_rounds
  let rounds := min rounds0 8
  let agents := team_config.agents.map fun agent =>
    { agent with
      model := if (rustTrim agent.model).data.isEmpty then camp_config.model
               else agent.model
      tool_subset := normalize_tool_subset agent.tool_subset }
  { is_team := true
    supervisor_model := supervisor_model
    agents := agents
    reflection_loops := team_config.reflection_loops
    max_reflection_rounds := rounds }

/-- The pure state change performed by `update_team_settings` before the
config is saved (the save itself normalizes again). -/
def update_team_settings_core (team_config : TeamConfig)
    (settings : TeamSettingsUpdateInput) : Except String TeamConfig :=
  let supervisor_model := rustTrim settings.supervisor_model
  if supervisor_model.data.isEmpty then
    .error "supervisor_model is required."
  else
    .ok { team_config with
      supervisor_model := supervisor_model
      reflection_loops := settings.reflection_loops
      max_reflection_rounds := min (max settings.max_reflection_rounds 1) 8 }

/-- The persisted configuration produced by `save_team_config`: every write
path of the module (`create_team_agent`, `remove_team_agent`,
`update_team_settings`, and the defaulting branch of `load_team_config`)
normalizes before writing `team.json`. -/
def save_team_config_written (team_config : TeamConfig)
    (camp_config : CampConfig) : TeamConfig :=
  normalize_team_config team_config camp_config

/-- Pure core of `create_team_agent` (after the camp directory and stored
config are loaded): validate the id, enforce the roster bound, require role
and model, normalize the agent and upsert it into the case-insensitively
sorted roster. Returns the roster that is then saved. -/
def create_team_agent_core (team_config : TeamConfig)
    (agent_config : TeamAgentConfig) : Except String TeamConfig :=
  match validate_simple_identifier agent_config.id "agent_config.id" with
  | .error e => .error e
  | .ok agent_id =>
  if team_config.agents.length ≥ TEAM_MAX_AGENTS
      ∧ ¬ team_config.agents.any (fun agent => agent.id = agent_id) then
    .error ("A team can have at most 8 agents. Remove one before adding another.")
  else
    let role := rustTrim agent_config.role
    if role.data.isEmpty then
      .error "agent_config.role is required."
    else
      let model := rustTrim agent_config.model
      if model.data.isEmpty then
        .error "agent_config.model is required."
      else
        let normalized : TeamAgentConfig :=
          { id := agent_id
            role := role
            model := model
            tool_subset := normalize_tool_subset agent_config.tool_subset
            description := rustTrim agent_config.description }
        let agents :=
          if team_config.agents.any (fun agent => agent.id = agent_id) then
            team_config.agents.map fun agent =>
              if agent.id = agent_id then normalized else agent
          else
            team_config.agents ++ [normalized]
        let sorted := agents.mergeSort fun left right =>
          strAsciiLower left.id ≤ strAsciiLower right.id
        .ok { team_config with agents := sorted }

/-! ## Decomposition plans and `validate_decomposition_plan` -/

structure DelegationStep where
  step_id : String
  assigned_to : String
  instruction : String
  depends_on : List String
  expected_output : String
deriving Repr, DecidableEq

structure DecompositionPlan where
  task_summary : String
  steps : List DelegationStep
  reflection_required : Bool
deriving Repr, DecidableEq

/-- Normalize and validate the `depends_on` list of one step: validate each
entry as a simple identifier and de-duplicate, keeping first occurrences. -/
def validateDeps : List String → List String → Except String (List String)
  | [], acc => .ok acc
  | dep :: rest, acc =>
    match validate_simple_identifier dep "depends_on" with
    | .error e => .error e
    | .ok normalized =>
      if acc.contains normalized then
        validateDeps rest acc
      else
        validateDeps rest (acc ++ [normalized])

/-- First pass of `validate_decomposition_plan`: validate and normalize the
steps in order, threading the set of step ids seen so far. -/
def validateSteps (roster : List String) :
    List DelegationStep → List DelegationStep → List String →
    Except String (List DelegationStep × List String)
  | [], accSteps, stepIds => .ok (accSteps, stepIds)
  | step :: rest, accSteps, stepIds =>
    match validate_simple_identifier step.step_id "step_id" with
    | .error e => .error e
    | .ok step_id =>
      if stepIds.contains step_id then
        .error ("Duplicate step_id `" ++ step_id ++ "` in decomposition plan.")
      else
        match validate_simple_identifier step.assigned_to "assigned_to" with
        | .error e => .error e
        | .ok assigned_to =>
          if ¬ roster.contains assigned_to then
            .error ("Decomposition step `" ++ step_id
              ++ "` assigned to unknown agent `" ++ assigned_to ++ "`.")
          else if (rustTrim step.instruction).data.isEmpty then
            .error ("Decomposition step `" ++ step_id
              ++ "` is missing instruction text.")
          else
            match validateDeps step.depends_on [] with
            | .error e => .error e
            | .ok deps =>
              validateSteps roster rest
                (accSteps ++
                  [{ step_id := step_id
                     assigned_to := assigned_to
                     instruction := step.instruction
                     depends_on := deps
                     expected_output :=
                       if (rustTrim step.expected_output).data.isEmpty then
                         step_id ++ ".md"
                       else step.expected_output }])
                (stepIds ++ [step_id])

/-- Second pass: every dependency must name a step id of the plan. -/
def checkDeps (stepIds : List String) : List DelegationStep → Except String Unit
  | [] => .ok ()
  | step :: rest =>
    match step.depends_on.find? (fun dep => ¬ stepIds.contains dep) with
    | some dep =>
        .error ("Step `" ++ step.step_id ++ "` depends on unknown step `" ++ dep ++ "`.")
    | none => checkDeps stepIds rest

/-- Model of `validate_decomposition_plan`. -/
def validate_decomposition_plan (team_config : TeamConfig)
    (plan : DecompositionPlan) : Except String DecompositionPlan :=
  let task_summary :=
    if (rustTrim plan.task_summary).data.isEmpty then "Task decomposition"
    else plan.task_summary
  if plan.steps.isEmpty then
    .error "Supervisor returned no steps in decomposition plan."
  else
    let roster := team_config.agents.map TeamAgentConfig.id
    match validateSteps roster plan.steps [] [] with
    | .error e => .error e
    | .ok (steps, stepIds) =>
      match checkDeps stepIds steps with
      | .error e => .error e
      | .ok _ =>
        .ok { task_summary := task_summary
              steps := steps
              reflection_required := plan.reflection_required }

/-! ## JSON values (model of `serde_json::Value` restricted to the shapes the
module reads and writes; numbers are integers — the module never emits
floating-point payloads) -/

inductive Json where
  | null
  | bool (b : Bool)
  | num (n : Int)
  | str (s : String)
  | arr (items : List Json)
  | obj (fields : List (String × Json))
deriving Repr

/-- Field lookup on a JSON object (model of `Value::get` for object maps). -/
def Json.getField (j : Json) (key : String) : Option Json :=
  match j with
  | .obj fields => (fields.find? (fun f => f.1 = key)).map Prod.snd
  | _ => none

/-- Model of `Value::as_str`. -/
def Json.asStr : Json → Option String
  | .str s => some s
  | _ => none

/-- Model of `Value::as_bool`. -/
def Json.asBool : Json → Option Bool
  | .bool b => some b
  | _ => none

/-- Escape one character the way the compact `serde_json` printer does for
the characters the module can emit. -/
def escChar (c : Char) : List Char :=
  if c = '"' then ['\\', '"']
  else if c = '\\' then ['\\', '\\']
  else if c = '\n' then ['\\', 'n']
  else if c = '\r' then ['\\', 'r']
  else if c = '\t' then ['\\', 't']
  else [c]

/-- Decimal digits of a natural number, most significant first. -/
def natDigits (n : Nat) : List Char :=
  if _h : n < 10 then [Nat.digitChar n]
  else natDigits (n / 10) ++ [Nat.digitChar (n % 10)]
decreasing_by exact Nat.div_lt_self (by omega) (by omega)

/-- Compact decimal printing of an integer. -/
def printInt (n : Int) : List Char :=
  if n < 0 then '-' :: natDigits n.natAbs else natDigits n.natAbs

mutual

/-- Compact JSON printer (model of `serde_json::to_string`). -/
def printJs : Json → List Char
  | .null => "null".data
  | .bool true => "true".data
  | .bool false => "false".data
  | .num n => printInt n
  | .str s => '"' :: s.data.flatMap escChar ++ ['"']
  | .arr [] => ['[', ']']
  | .arr (v :: vs) => '[' :: printItems v vs ++ [']']
  | .obj [] => ['{', '}']
  | .obj (f :: fs) => '{' :: printFields f fs ++ ['}']
termination_by j => sizeOf j

/-- Comma-separated printing of a non-empty array body. -/
def printItems : Json → List Json → List Char
  | v, [] => printJs v
  | v, w :: ws => printJs v ++ ',' :: printItems w ws
termination_by v vs => sizeOf v + sizeOf vs

/-- Comma-separated printing of a non-empty object body. -/
def printFields : (String × Json) → List (String × Json) → List Char
  | (k, v), [] => '"' :: k.data.flatMap escChar ++ '"' :: ':' :: printJs v
  | (k, v), g :: gs => ('"' :: k.data.flatMap escChar ++ '"' :: ':' :: printJs v)
      ++ ',' :: printFields g gs
termination_by f fs => sizeOf f + sizeOf fs

end

/-- Unescape one escaped character. -/
def unescChar (c : Char) : Option Char :=
  if c = '"' then some '"'
  else if c = '\\' then some '\\'
  else if c = 'n' then some '\n'
  else if c = 'r' then some '\r'
  else if c = 't' then some '\t'
  else none

/-- Parse the body of a JSON string up to and including the closing quote,
returning the unescaped characters and the unconsumed tail. -/
def parseStrBody : List Char → Option (List Char × List Char)
  | [] => none
  | c :: rest =>
    if c = '"' then some ([], rest)
    else if c = '\\' then
      match rest with
      | [] => none
      | e :: rest2 =>
        match unescChar e, parseStrBody rest2 with
        | some u, some (s, r) => some (u :: s, r)
        | _, _ => none
    else
      match parseStrBody rest with
      | some (s, r) => some (c :: s, r)
      | none => none

/-- Split a character list into its maximal leading run of decimal digits
and the rest. -/
def takeDigits : List Char → List Char × List Char
  | [] => ([], [])
  | c :: cs =>
    if c.isDigit then
      let (ds, r) := takeDigits cs
      (c :: ds, r)
    else ([], c :: cs)

/-- Numeric value of a digit character. -/
def digitVal (c : Char) : Nat := c.toNat - 48

/-- Value of a list of decimal digits, most significant first. -/
def digitsToNat (ds : List Char) : Nat :=
  ds.foldl (fun a c => a * 10 + digitVal c) 0

/-- Strip an expected literal prefix, returning the tail on success. -/
def dropPre : List Char → List Char → Option (List Char)
  | [], cs => some cs
  | _ :: _, [] => none
  | p :: ps, c :: cs => if c = p then dropPre ps cs else none

mutual

/-- Fuel-indexed parser for compact JSON, inverse of `printJs`. -/
def parseJs : Nat → List Char → Option (Json × List Char)
  | 0, _ => none
  | _ + 1, [] => none
  | n + 1, c :: cs =>
    if c = 'n' then
      match dropPre ['u', 'l', 'l'] cs with
      | some rest => some (.null, rest)
      | none => none
    else if c = 't' then
      match dropPre ['r', 'u', 'e'] cs with
      | some rest => some (.bool true, rest)
      | none => none
    else if c = 'f' then
      match dropPre ['a', 'l', 's', 'e'] cs with
      | some rest => some (.bool false, rest)
      | none => none
    else if c = '"' then
      match parseStrBody cs with
      | some (s, rest) => some (.str ⟨s⟩, rest)
      | none => none
    else if c = '[' then
      if cs.head? = some ']' then some (.arr [], cs.tail)
      else
        match parseItems n cs with
        | some (items, rest) => some (.arr items, rest)
        | none => none
    else if c = '{' then
      if cs.head? = some '}' then some (.obj [], cs.tail)
      else
        match parseFields n cs with
        | some (fields, rest) => some (.obj fields, rest)
        | none => none
    else if c = '-' then
      match takeDigits cs with
      | ([], _) => none
      | (ds, rest) => some (.num (-(digitsToNat ds : Int)), rest)
    else if c.isDigit then
      match takeDigits (c :: cs) with
      | (ds, rest) => some (.num (digitsToNat ds : Int), rest)
    else none

/-- Parse a non-empty array body followed by `]`. -/
def parseItems : Nat → List Char → Option (List Json × List Char)
  | 0, _ => none
  | n + 1, cs =>
    match parseJs n cs with
    | none => none
    | some (v, r) =>
      match r with
      | [] => none
      | c :: r2 =>
        if c = ']' then some ([v], r2)
        else if c = ',' then
          match parseItems n r2 with
          | some (vs, rest) => some (v :: vs, rest)
          | none => none
        else none

/-- Parse a non-empty object body followed by `}`. -/
def parseFields : Nat → List Char → Option (List (String × Json) × List Char)
  | 0, _ => none
  | n + 1, cs =>
    match cs with
    | [] => none
    | c :: cs2 =>
      if c = '"' then
        match parseStrBody cs2 with
        | none => none
        | some (key, r1) =>
          match r1 with
          | [] => none
          | d :: r2 =>
            if d = ':' then
              match parseJs n r2 with
              | none => none
              | some (v, r3) =>
                match r3 with
                | [] => none
                | e :: r4 =>
                  if e = '}' then some ([(⟨key⟩, v)], r4)
                  else if e = ',' then
                    match parseFields n r4 with
                    | some (fields, rest) => some ((⟨key⟩, v) :: fields, rest)
                    | none => none
                  else none
            else none
      else none

end

/-! ## Bus entries and the journal file -/

inductive BusEntryType where
  | decomposition
  | delegation
  | result
  | critique
  | promotion
  | error
deriving Repr, DecidableEq

structure BusTokenUsage where
  input : Int
  output : Int
deriving Repr, DecidableEq

structure BusEntry where
  id : String
  timestamp : String
  entry_type : BusEntryType
  from_ : String
  to_ : String
  step_id : Option String
  content : Json
  token_usage : BusTokenUsage
deriving Repr

/-- Snake-case serialization of `BusEntryType`. -/
def busTypeStr : BusEntryType → String
  | .decomposition => "decomposition"
  | .delegation => "delegation"
  | .result => "result"
  | .critique => "critique"
  | .promotion => "promotion"
  | .error => "error"

/-- Inverse of `busTypeStr`. -/
def strBusType (s : String) : Option BusEntryType :=
  if s = "decomposition" then some .decomposition
  else if s = "delegation" then some .delegation
  else if s = "result" then some .result
  else if s = "critique" then some .critique
  else if s = "promotion" then some .promotion
  else if s = "error" then some .error
  else none

/-- JSON form of a bus entry: field order and the `step_id` skip follow the
`serde` derive on the Rust struct (`skip_serializing_if = Option::is_none`,
`rename = "type"`). -/
def busToJson (e : BusEntry) : Json :=
  .obj ([("id", .str e.id), ("timestamp", .str e.timestamp),
    ("type", .str (busTypeStr e.entry_type)),
    ("from", .str e.from_), ("to", .str e.to_)]
    ++ (match e.step_id with
        | some sid => [("step_id", Json.str sid)]
        | none => [])
    ++ [("content", e.content),
        ("token_usage", .obj [("input", .num e.token_usage.input),
          ("output", .num e.token_usage.output)])])

/-- Recover a bus entry from its JSON form. -/
def busFromJson : Json → Option BusEntry
  | .obj (("id", .str id) :: ("timestamp", .str ts) :: ("type", .str tys)
      :: ("from", .str f) :: ("to", .str t) :: rest) =>
    match strBusType tys with
    | none => none
    | some ty =>
      match rest with
      | [("step_id", .str sid), ("content", c),
         ("token_usage", .obj [("input", .num i), ("output", .num o)])] =>
        some ⟨id, ts, ty, f, t, some sid, c, ⟨i, o⟩⟩
      | [("content", c),
         ("token_usage", .obj [("input", .num i), ("output", .num o)])] =>
        some ⟨id, ts, ty, f, t, none, c, ⟨i, o⟩⟩
      | _ => none
  | _ => none

/-- Serialize a bus entry to one journal line (without the newline). -/
def encodeBusEntry (e : BusEntry) : List Char :=
  printJs (busToJson e)

/-- Parse one journal line back into a bus entry. -/
def decodeBusEntry (l : List Char) : Option BusEntry :=
  match parseJs (l.length + 1) l with
  | some (v, []) => busFromJson v
  | _ => none

/-- Split a character stream into newline-separated segments. -/
def splitNl : List Char → List (List Char)
  | [] => [[]]
  | c :: cs =>
    if c = '\n' then [] :: splitNl cs
    else
      match splitNl cs with
      | [] => [[c]]
      | l :: ls => (c :: l) :: ls

/-- Model of `append_team_bus_entry`: serialize the entry, add a newline and
append the bytes to the journal file (the best-effort UI push has no effect
on the file). -/
def append_team_bus_entry (file : List Char) (entry : BusEntry) : List Char :=
  file ++ encodeBusEntry entry ++ ['\n']

/-- Append a whole sequence of entries, one `append_team_bus_entry` each. -/
def appendEntries (file : List Char) (entries : List BusEntry) : List Char :=
  entries.foldl append_team_bus_entry file

/-- The reading loop of `read_team_bus_entries`: trim each line, skip blank
lines, fail fast on the first unparsable line. -/
def parseBusLines : List (List Char) → Except String (List BusEntry)
  | [] => .ok []
  | l :: ls =>
    let trimmed := trimChars l
    if trimmed.isEmpty then parseBusLines ls
    else
      match decodeBusEntry trimmed with
      | some e => (parseBusLines ls).map (fun es => e :: es)
      | none => .error "Unable to parse team bus entry."

/-- Model of `read_team_bus_entries` on the journal file contents. -/
def read_team_bus_entries (file : List Char) : Except String (List BusEntry) :=
  parseBusLines (splitNl file)

/-! ## Path validation and the tool sandbox

Paths are modelled with Unix separator semantics: `/` separates components
and `\` is an ordinary file-name character.  A canonical path is its list of
components; the model filesystem contains no symbolic links, so
`fs::canonicalize` of a path whose components are all normal is the path
itself. -/

inductive PathComp where
  | normal (s : String)
  | curDir
  | parentDir
deriving Repr, DecidableEq

/-- Split a path string into raw `/`-separated pieces. -/
def pathPieces (s : String) : List String :=
  (s.data.splitOn '/').map fun piece => ⟨piece⟩

/-- `Path::components` on Unix for a relative path: empty pieces collapse,
`.` is dropped except as the leading component, `..` is kept. -/
def pathComponents (s : String) : List PathComp :=
  let pieces := (pathPieces s).filter fun piece => ¬ piece.data.isEmpty
  let comps := pieces.map fun piece =>
    if piece = "." then PathComp.curDir
    else if piece = ".." then PathComp.parentDir
    else PathComp.normal piece
  match comps with
  | [] => []
  | first :: rest => first :: rest.filter (· ≠ PathComp.curDir)

/-- `Path::is_absolute` on Unix. -/
def pathIsAbsolute (s : String) : Bool :=
  s.data.head? = some '/'

/-- Model of `validate_relative_path`: trim, optionally allow the empty
path, reject absolute paths and any non-normal component.  Returns the list
of normal components of the validated relative path. -/
def validate_relative_path (path : String) (field_name : String)
    (allow_empty : Bool) : Except String (List String) :=
  let trimmed := rustTrim path
  if trimmed.data.isEmpty then
    if allow_empty then .ok []
    else .error (field_name ++ " is required.")
  else if pathIsAbsolute trimmed then
    .error (field_name ++ " must be a relative path.")
  else if (pathComponents trimmed).any
      (fun comp => comp = PathComp.curDir ∨ comp = PathComp.parentDir) then
    .error (field_name
      ++ " must not contain traversal segments or absolute path markers.")
  else
    .ok ((pathComponents trimmed).filterMap fun comp =>
      match comp with
      | PathComp.normal s => some s
      | _ => none)

/-- Message of `ensure_within_root` when the prefix check fails. -/
def escapeMessage : String := "Path escapes the agent context directory."

/-- Model of `ensure_within_root`: prefix comparison on canonical component
lists. -/
def ensure_within_root (root target : List String) : Except String Unit :=
  if root.isPrefixOf target then .ok () else .error escapeMessage

/-- Model filesystem: an association of canonical absolute paths (component
lists) to file contents; later entries shadow earlier ones. -/
structure Fs where
  files : List (List String × String)
deriving Repr

/-- Look a file up by canonical path. -/
def Fs.get (fs : Fs) (path : List String) : Option String :=
  (fs.files.find? (fun f => f.1 = path)).map Prod.snd

/-- Write (create or overwrite) a file. -/
def Fs.write (fs : Fs) (path : List String) (content : String) : Fs :=
  ⟨(path, content) :: fs.files⟩

/-- Model of `resolve_write_agent_target`: validate the relative path, join
it to the canonical context root, create the parent directories and check
the canonicalized parent stays under the root.  In the symlink-free model
the canonical parent is the joined parent itself, and directory creation
does not affect the file map. -/
def resolve_write_agent_target (root : List String) (relative : String) :
    Except String (List String) :=
  match validate_relative_path relative "path" false with
  | .error e => .error e
  | .ok rel =>
    let target := root ++ rel
    let canonical_parent := target.dropLast
    match ensure_within_root root canonical_parent with
    | .error e => .error e
    | .ok _ => .ok target

/-- Model of `write_file_tool`.  `b64decode` stands for the external base64
decoder; its failures are reported like the Rust `Invalid base64 content`
branch.  Returns the textual tool result paired with the written relative
path on success, together with the (possibly updated) filesystem: the
filesystem is only touched after all path validation has succeeded. -/
def write_file_tool (b64decode : String → Option String) (root : List String)
    (args : Json) (fs : Fs) :
    (Except String (String × List String)) × Fs :=
  match (args.getField "path").bind Json.asStr with
  | none => (.error "write_file requires `path` string argument.", fs)
  | some path =>
    match (args.getField "content").bind Json.asStr with
    | none => (.error "write_file requires `content` string argument.", fs)
    | some content =>
      let encoding :=
        match (args.getField "encoding").bind Json.asStr with
        | some e => strAsciiLower e
        | none => "utf-8"
      match resolve_write_agent_target root path with
      | .error e => (.error e, fs)
      | .ok target =>
        let decoded :=
          if encoding = "base64" then
            match b64decode content with
            | some decoded => Except.ok decoded
            | none => Except.error "Invalid base64 content."
          else
            Except.ok content
        match decoded with
        | .error e => (.error e, fs)
        | .ok bytes =>
          let fs2 := fs.write target bytes
          match ensure_within_root root target with
          | .error e => (.error e, fs2)
          | .ok _ =>
            let relative := String.intercalate "/" (target.drop root.length)
            (.ok ("written:" ++ relative, [relative]), fs2)

/-- Model of `resolve_existing_agent_target`: validate, join, canonicalize
(which fails when the file does not exist) and check containment. -/
def resolve_existing_agent_target (root : List String) (relative : String)
    (field_name : String) (allow_empty : Bool) (fs : Fs) :
    Except String (List String) :=
  match validate_relative_path relative field_name allow_empty with
  | .error e => .error e
  | .ok rel =>
    let joined := root ++ rel
    if (fs.get joined).isNone ∧ rel ≠ [] then
      .error ("Unable to resolve path `" ++ relative ++ "`.")
    else
      match ensure_within_root root joined with
      | .error e => .error e
      | .ok _ => .ok joined

/-- Model of `read_file_tool`. -/
def read_file_tool (root : List String) (args : Json) (fs : Fs) :
    Except String String :=
  match (args.getField "path").bind Json.asStr with
  | none => .error "read_file requires `path` string argument."
  | some path =>
    match resolve_existing_agent_target root path "path" false fs with
    | .error e => .error e
    | .ok target =>
      match fs.get target with
      | none => .error "Requested path is not a file."
      | some content => .ok ("read:" ++ content)

/-- Model of `list_files_tool`: every stored file under the resolved
directory, listed by `/`-joined relative path, sorted. -/
def list_files_tool (root : List String) (args : Json) (fs : Fs) :
    Except String String :=
  let path :=
    match (args.getField "path").bind Json.asStr with
    | some p => p
    | none => ""
  match validate_relative_path path "path" true with
  | .error e => .error e
  | .ok rel =>
    let target := root ++ rel
    let names := fs.files.filterMap fun f =>
      if target.isPrefixOf f.1 ∧ f.1 ≠ target then
        some (String.intercalate "/" (f.1.drop root.length))
      else none
    .ok ("files:" ++ String.intercalate "," (names.mergeSort (· ≤ ·)))

/-- A tool call as the loop sees it: the call id, the function name and the
already-decoded arguments object (`parse_tool_call_args`; `none` stands for
an arguments string that is not valid JSON). -/
structure ToolCall where
  id : Option String
  name : Option String
  arguments : Option Json

/-- Model of `execute_team_tool_call`: dispatch on the tool name; failures
become an error result string rather than aborting (the Rust code renders
them as a JSON error object).  Returns the rendered result plus the updated
filesystem and the accumulated written paths. -/
def execute_team_tool_call (b64decode : String → Option String)
    (root : List String) (tool_call : ToolCall) (fs : Fs) (writes : List String) :
    String × Fs × List String :=
  match tool_call.name with
  | none => ("error:Tool call missing function.name", fs, writes)
  | some name =>
    match tool_call.arguments with
    | none => ("error:Invalid tool arguments JSON", fs, writes)
    | some args =>
      if name = "read_file" then
        match read_file_tool root args fs with
        | .ok content => (content, fs, writes)
        | .error msg => ("error:" ++ msg, fs, writes)
      else if name = "list_files" then
        match list_files_tool root args fs with
        | .ok content => (content, fs, writes)
        | .error msg => ("error:" ++ msg, fs, writes)
      else if name = "write_file" then
        match write_file_tool b64decode root args fs with
        | (.ok (content, newWrites), fs2) => (content, fs2, writes ++ newWrites)
        | (.error msg, fs2) => ("error:" ++ msg, fs2, writes)
      else if name = "web_search" then
        ("error:web_search is not available in local deterministic team mode.",
          fs, writes)
      else ("error:Unsupported tool `" ++ name ++ "`.", fs, writes)

/-! ## The agent tool-use loop (`run_agent_inference_loop`)

The chat-completion service is an external collaborator; it is modelled as
the list of responses it would return to the successive requests of the
loop (an entry `.error msg` scripts a transport failure surfaced verbatim).
The loop also returns, as ghost instrumentation, the number of
request/response round trips it performed. -/

structure ChatUsage where
  prompt_tokens : Option Int
  completion_tokens : Option Int
deriving Repr, DecidableEq

structure ChatResponse where
  output_text : String
  content : Option Json
  tool_calls : List ToolCall
  usage : ChatUsage

/-- Model of `accumulate_usage`. -/
def accumulate_usage (into : BusTokenUsage) (usage : ChatUsage) : BusTokenUsage :=
  ⟨into.input + usage.prompt_tokens.getD 0, into.output + usage.completion_tokens.getD 0⟩

structure AgentRunOutput where
  output_text : String
  token_usage : BusTokenUsage
  context_writes : List String
deriving Repr, DecidableEq

/-- Render a tool call as the JSON stored in the running transcript. -/
def ToolCall.render (tc : ToolCall) : Json :=
  .obj [("id", .str (tc.id.getD "")),
    ("function", .obj [("name", .str (tc.name.getD "")),
      ("arguments", tc.arguments.getD .null)])]

/-- Execute the tool calls of one assistant turn sequentially, appending one
`tool`-role message per call. -/
def runToolCalls (b64decode : String → Option String) (root : List String) :
    List ToolCall → Fs → List String → List Json → Fs × List String × List Json
  | [], fs, writes, messages => (fs, writes, messages)
  | tc :: rest, fs, writes, messages =>
    let (result, fs2, writes2) := execute_team_tool_call b64decode root tc fs writes
    let message := Json.obj [("role", .str "tool"),
      ("tool_call_id", .str (tc.id.getD "tool-uuid")),
      ("name", .str (tc.name.getD "unknown_tool")),
      ("content", .str result)]
    runToolCalls b64decode root rest fs2 writes2 (messages ++ [message])

/-- One-iteration-at-a-time model of the bounded tool loop.  `fuel` counts
the remaining iterations (starting at `TEAM_MAX_TOOL_LOOPS`); the `Nat`
result is the number of chat round trips performed. -/
def runLoopAux (b64decode : String → Option String) (root : List String) :
    Nat → List (Except String ChatResponse) → List Json → BusTokenUsage →
    String → List String → Fs → Nat →
    (Except String AgentRunOutput) × Fs × Nat
  | 0, _, _, total, final, writes, fs, calls =>
    (.ok ⟨final, total, writes⟩, fs, calls)
  | _ + 1, [], _, _, _, _, fs, calls =>
    (.error "chat completion transport failure", fs, calls)
  | _ + 1, .error msg :: _, _, _, _, _, fs, calls =>
    (.error msg, fs, calls + 1)
  | fuel + 1, .ok response :: responses, messages, total, _, writes, fs, calls =>
    let total2 := accumulate_usage total response.usage
    let assistant_content := response.content.getD (.str response.output_text)
    let assistant_message := Json.obj
      ([("role", Json.str "assistant"), ("content", assistant_content)]
        ++ (if response.tool_calls.isEmpty then []
            else [("tool_calls", Json.arr (response.tool_calls.map ToolCall.render))]))
    let messages2 := messages ++ [assistant_message]
    let final2 := rustTrim response.output_text
    if response.tool_calls.isEmpty then
      (.ok ⟨final2, total2, writes⟩, fs, calls + 1)
    else
      let (fs2, writes2, messages3) :=
        runToolCalls b64decode root response.tool_calls fs writes messages2
      runLoopAux b64decode root fuel responses messages3 total2 final2 writes2 fs2
        (calls + 1)

/-- Model of `run_agent_inference_loop`. -/
def run_agent_inference_loop (b64decode : String → Option String)
    (root : List String) (responses : List (Except String ChatResponse))
    (messages : List Json) (fs : Fs) :
    (Except String AgentRunOutput) × Fs × Nat :=
  runLoopAux b64decode root TEAM_MAX_TOOL_LOOPS responses messages ⟨0, 0⟩ "" [] fs 0

/-! ## The reflection engine (`run_reflection_loop`) -/

structure CritiqueResult where
  issues : List String
  suggestions : List String
  pass : Bool
deriving Repr, DecidableEq

structure ReflectionSummary where
  artifact_path : String
  promoted_path : String
  rounds_completed : Nat
  pass : Bool
  critiques : List CritiqueResult
deriving Repr, DecidableEq

/-- Model of `make_bus_entry` with the id and timestamp supplied by the
caller (`Uuid::new_v4` and `now_iso8601` are external effects). -/
def make_bus_entry (id timestamp : String) (entry_type : BusEntryType)
    (from_ to_ : String) (step_id : Option String) (content : Json)
    (token_usage : BusTokenUsage) : BusEntry :=
  ⟨id, timestamp, entry_type, from_, to_, step_id, content, token_usage⟩

/-- Model of `find_agent_by_role` (role or id compared ASCII
case-insensitively). -/
def find_agent_by_role (team_config : TeamConfig) (role_name : String) :
    Option TeamAgentConfig :=
  team_config.agents.find? fun agent =>
    strAsciiLower agent.role = strAsciiLower role_name
      ∨ strAsciiLower agent.id = strAsciiLower role_name

/-- Model of `reflection_requested_rounds`: the clamping at the top of
`run_reflection_loop` (`max(1)` then `0 ↦ max`, otherwise `min`). -/
def reflection_requested_rounds (config_max rounds : Nat) : Nat :=
  let max_rounds := max config_max 1
  if rounds = 0 then max_rounds else min rounds max_rounds

/-- The external effects consumed by one reflection loop: the parsed critic
verdict and usage per round, the writer revision (as returned, pre-trim) and
usage per round, and the id/timestamp supply for journal entries. -/
structure ReflectionEnv where
  critic : Nat → CritiqueResult
  criticUsage : Nat → BusTokenUsage
  writer : Nat → String
  writerUsage : Nat → BusTokenUsage
  entryId : Nat → String
  entryTs : Nat → String

/-- Journal payload of a critique entry. -/
def critiqueJson (round : Nat) (critique : CritiqueResult) : Json :=
  .obj [("round", .num round), ("issues", .arr (critique.issues.map Json.str)),
    ("suggestions", .arr (critique.suggestions.map Json.str)),
    ("pass", .bool critique.pass)]

/-- Journal payload of a writer revision entry. -/
def writerJson (round : Nat) (artifact_path output_text : String) : Json :=
  .obj [("round", .num round), ("artifact_path", .str artifact_path),
    ("output_text", .str output_text)]

/-- Result of the critique loop proper (before promotion). -/
structure ReflectLoopResult where
  artifact : String
  journal : List BusEntry
  nextEntry : Nat
  critiques : List CritiqueResult
  pass : Bool
  rounds_completed : Nat
deriving Repr

/-- The `for round in 1..=requested_rounds` loop of `run_reflection_loop`:
critic review, journaled critique, the three exit conditions, and the writer
revision that overwrites the draft in place. -/
def reflection_rounds (env : ReflectionEnv) (reflection_loops : Bool)
    (critic_id writer_id artifact_path : String) :
    List Nat → String → List BusEntry → Nat → List CritiqueResult → Nat →
    ReflectLoopResult
  | [], artifact, journal, k, critiques, lastRound =>
    ⟨artifact, journal, k, critiques, false, lastRound⟩
  | round :: rest, artifact, journal, k, critiques, _ =>
    let critique := env.critic round
    let critiques2 := critiques ++ [critique]
    let entry := make_bus_entry (env.entryId k) (env.entryTs k) .critique
      critic_id "supervisor" none (critiqueJson round critique)
      (env.criticUsage round)
    let journal2 := journal ++ [entry]
    if critique.pass then
      ⟨artifact, journal2, k + 1, critiques2, true, round⟩
    else if ¬ reflection_loops ∨ rest.isEmpty then
      ⟨artifact, journal2, k + 1, critiques2, false, round⟩
    else
      let revised := rustTrim (env.writer round)
      let wEntry := make_bus_entry (env.entryId (k + 1)) (env.entryTs (k + 1))
        .result writer_id critic_id none
        (writerJson round artifact_path revised) (env.writerUsage round)
      reflection_rounds env reflection_loops critic_id writer_id artifact_path
        rest revised (journal2 ++ [wEntry]) (k + 2) critiques2 round

/-- Split a file name into Rust `file_stem` / `extension`. -/
def fileStemExt (name : String) : String × Option String :=
  match (name.data.reverse.splitOn '.').head? with
  | none => (name, none)
  | some revExt =>
    if revExt.length = name.data.length ∨ revExt.length + 1 = name.data.length then
      (name, none)
    else
      (⟨name.data.take (name.data.length - revExt.length - 1)⟩,
        some ⟨revExt.reverse⟩)

/-- Model of `unique_promoted_target` on the promoted directory listing,
with the timestamp supplied by the caller. -/
def unique_promoted_target (promoted : List String) (source_filename ts : String) :
    String :=
  if ¬ promoted.contains source_filename then source_filename
  else
    let (stem0, ext0) := fileStemExt source_filename
    let stem := if stem0.data.isEmpty then "artifact" else stem0
    let ext := ext0.getD "md"
    stem ++ "-" ++ ts ++ "." ++ ext

/-- Model of `move_draft_to_promoted`: pick the collision-avoiding target,
remove the draft from the drafts directory and add the target to the
promoted directory.  Returns the two display paths and the updated
listings. -/
def move_draft_to_promoted (drafts promoted : List String)
    (draftName ts : String) : (String × String) × List String × List String :=
  let target := unique_promoted_target promoted draftName ts
  (("artifacts/drafts/" ++ draftName, "artifacts/promoted/" ++ target),
    drafts.erase draftName, promoted ++ [target])

/-- Everything `run_reflection_loop` produces in the model: the summary, the
journal entries appended, and the final artifact directory listings. -/
structure ReflectionOutcome where
  summary : ReflectionSummary
  journal : List BusEntry
  drafts : List String
  promoted : List String
deriving Repr

/-- Model of `run_reflection_loop` after the camp/config/draft loads: role
lookup, round clamping, the critique loop, then the unconditional promotion
and its journal entry. -/
def run_reflection_loop_core (env : ReflectionEnv) (team_config : TeamConfig)
    (artifact_path : String) (rounds : Nat) (draftName : String)
    (body0 : String) (drafts promoted : List String)
    (journal0 : List BusEntry) (promoteTs : String) :
    Except String ReflectionOutcome :=
  match find_agent_by_role team_config "writer" with
  | none => .error "Team is missing a Writer agent required for reflection loop."
  | some writer =>
    match find_agent_by_role team_config "critic" with
    | none => .error "Team is missing a Critic agent required for reflection loop."
    | some critic =>
      if ¬ drafts.contains draftName then
        .error "artifact_path must point to a draft file."
      else
        let requested :=
          reflection_requested_rounds team_config.max_reflection_rounds rounds
        let lr := reflection_rounds env team_config.reflection_loops critic.id
          writer.id artifact_path (List.range' 1 requested) body0 journal0 0 [] 0
        let ((from_path, promoted_path), drafts2, promoted2) :=
          move_draft_to_promoted drafts promoted draftName promoteTs
        let promotionEntry := make_bus_entry (env.entryId lr.nextEntry)
          (env.entryTs lr.nextEntry) .promotion "supervisor" "all" none
          (.obj [("from", .str from_path), ("to", .str promoted_path),
            ("pass", .bool lr.pass), ("rounds_completed", .num lr.rounds_completed)])
          ⟨0, 0⟩
        .ok ⟨⟨from_path, promoted_path, lr.rounds_completed, lr.pass, lr.critiques⟩,
          lr.journal ++ [promotionEntry], drafts2, promoted2⟩

/-! ## The status aggregator (`get_team_status`) -/

structure TeamStepStatus where
  step_id : String
  assigned_to : String
  expected_output : String
  status : String
deriving Repr, DecidableEq

structure TeamAgentStatus where
  id : String
  role : String
  model : String
  tool_subset : List String
  status : String
  token_usage : BusTokenUsage
  last_output_preview : Option String
deriving Repr

structure TeamArtifactsStatus where
  drafts : List String
  promoted : List String
deriving Repr

structure TeamStatus where
  is_team : Bool
  supervisor_model : String
  reflection_loops : Bool
  max_reflection_rounds : Nat
  agents : List TeamAgentStatus
  steps : List TeamStepStatus
  bus_entries : Nat
  artifacts : TeamArtifactsStatus
deriving Repr

/-- `serde` deserialization of a `DelegationStep` from a JSON value
(`depends_on` defaults to the empty list). -/
def stepFromJson (j : Json) : Option DelegationStep := do
  let step_id ← (j.getField "step_id").bind Json.asStr
  let assigned_to ← (j.getField "assigned_to").bind Json.asStr
  let instruction ← (j.getField "instruction").bind Json.asStr
  let depends_on ←
    match j.getField "depends_on" with
    | none => some []
    | some (.arr items) => items.mapM Json.asStr
    | some _ => none
  let expected_output ← (j.getField "expected_output").bind Json.asStr
  some ⟨step_id, assigned_to, instruction, depends_on, expected_output⟩

/-- `serde` deserialization of a `DecompositionPlan` from a JSON value
(`steps` and `reflection_required` default). -/
def planFromJson (j : Json) : Option DecompositionPlan := do
  let task_summary ← (j.getField "task_summary").bind Json.asStr
  let steps ←
    match j.getField "steps" with
    | none => some []
    | some (.arr items) => items.mapM stepFromJson
    | some _ => none
  let reflection_required ←
    match j.getField "reflection_required" with
    | none => some false
    | some v => v.asBool
  some ⟨task_summary, steps, reflection_required⟩

/-- The most recent Decomposition entry whose content parses as a plan
supersedes all earlier plans. -/
def latest_plan (entries : List BusEntry) : Option DecompositionPlan :=
  (entries.reverse.find? fun e => e.entry_type = .decomposition).bind
    fun e => planFromJson e.content

/-- `HashMap::insert` on an association list. -/
def mapInsert (m : List (String × String)) (key value : String) :
    List (String × String) :=
  if m.any (fun p => p.1 = key) then
    m.map fun p => if p.1 = key then (key, value) else p
  else m ++ [(key, value)]

/-- The journal walk that assigns each step its last-write-wins status. -/
def stepStatusMap (plan : Option DecompositionPlan) (entries : List BusEntry) :
    List (String × String) :=
  let init :=
    match plan with
    | some p => p.steps.foldl (fun m s => mapInsert m s.step_id "pending") []
    | none => []
  entries.foldl
    (fun m e =>
      match e.step_id with
      | some sid =>
        match e.entry_type with
        | .delegation => mapInsert m sid "running"
        | .result => mapInsert m sid "complete"
        | .error => mapInsert m sid "failed"
        | _ => m
      | none => m)
    init

/-- The per-step status list of `get_team_status`. -/
def team_step_statuses (entries : List BusEntry) : List TeamStepStatus :=
  match latest_plan entries with
  | none => []
  | some plan =>
    let m := stepStatusMap (some plan) entries
    plan.steps.map fun step =>
      ⟨step.step_id, step.assigned_to, step.expected_output,
        ((m.find? fun p => p.1 = step.step_id).map Prod.snd).getD "pending"⟩

/-- Per-agent token usage accumulated over all non-supervisor entries. -/
def agent_usage_of (entries : List BusEntry) (agent_id : String) : BusTokenUsage :=
  entries.foldl
    (fun u e =>
      if e.from_ ≠ "supervisor" ∧ e.from_ = agent_id then
        ⟨u.input + e.token_usage.input, u.output + e.token_usage.output⟩
      else u)
    ⟨0, 0⟩

/-- Model of `preview_from_content`. -/
def preview_from_content (content : Json) : Option String :=
  match content with
  | .str text =>
    let normalized := rustTrim ⟨text.data.map fun c => if c = '\n' then ' ' else c⟩
    if normalized.data.isEmpty then none else some ⟨normalized.data.take 200⟩
  | .obj _ =>
    match (content.getField "output_text").bind Json.asStr with
    | some output_text =>
      let normalized :=
        rustTrim ⟨output_text.data.map fun c => if c = '\n' then ' ' else c⟩
      if normalized.data.isEmpty then none else some ⟨normalized.data.take 200⟩
    | none => none
  | _ => none

/-- The most recent parsable Result preview from a non-supervisor agent. -/
def agent_last_preview (entries : List BusEntry) (agent_id : String) :
    Option String :=
  entries.foldl
    (fun acc e =>
      if e.from_ ≠ "supervisor" ∧ e.from_ = agent_id ∧ e.entry_type = .result then
        match preview_from_content e.content with
        | some p => some p
        | none => acc
      else acc)
    none

/-- The per-agent display status derivation of `get_team_status`, exactly as
the code computes it. -/
def agent_display_status (steps : List TeamStepStatus) (entries : List BusEntry)
    (agent_id : String) : String :=
  if steps.any (fun step => step.assigned_to = agent_id ∧ step.status = "running")
  then "working"
  else if entries.reverse.any
      (fun e => e.from_ = agent_id ∧ e.entry_type = .critique)
  then "reflecting"
  else "idle"

/-- Modelled from the spec: the spec's wording of the same derivation —
"working" if any step currently assigned to the agent is "running", else
"reflecting" if the agent's most recent relevant journal entry (the last
entry issued by that agent) is a Critique from them, else "idle". -/
def agent_display_status_speced (steps : List TeamStepStatus)
    (entries : List BusEntry) (agent_id : String) : String :=
  if steps.any (fun step => step.assigned_to = agent_id ∧ step.status = "running")
  then "working"
  else
    match (entries.filter fun e => e.from_ = agent_id).getLast? with
    | some e => if e.entry_type = .critique then "reflecting" else "idle"
    | none => "idle"

/-- Model of `get_team_status` as a pure function of the camp config, the
stored team config, the journal entries, and the draft/promoted directory
listings. -/
def get_team_status (camp_config : CampConfig) (team_config : TeamConfig)
    (entries : List BusEntry) (draft_files promoted_files : List String) :
    TeamStatus :=
  if ¬ camp_config.is_team then
    { is_team := false
      supervisor_model := ""
      reflection_loops := false
      max_reflection_rounds := TEAM_DEFAULT_MAX_REFLECTION_ROUNDS
      agents := []
      steps := []
      bus_entries := 0
      artifacts := ⟨[], []⟩ }
  else
    let steps := team_step_statuses entries
    let agents := team_config.agents.map fun agent =>
      { id := agent.id
        role := agent.role
        model := agent.model
        tool_subset := agent.tool_subset
        status := agent_display_status steps entries agent.id
        token_usage := agent_usage_of entries agent.id
        last_output_preview := agent_last_preview entries agent.id
        : TeamAgentStatus }
    { is_team := true
      supervisor_model := team_config.supervisor_model
      reflection_loops := team_config.reflection_loops
      max_reflection_rounds := team_config.max_reflection_rounds
      agents := agents
      steps := steps
      bus_entries := entries.length
      artifacts := ⟨draft_files.mergeSort (· ≤ ·), promoted_files.mergeSort (· ≤ ·)⟩ }

/-! ## Fuel measures for the JSON parser -/

mutual

/-- Fuel sufficient for `parseJs` to parse the printed form of a value. -/
def needJs : Json → Nat
  | .null => 1
  | .bool _ => 1
  | .num _ => 1
  | .str _ => 1
  | .arr [] => 1
  | .arr (v :: vs) => 1 + needItems v vs
  | .obj [] => 1
  | .obj (f :: fs) => 1 + needFields f fs
termination_by j => sizeOf j

/-- Fuel sufficient for `parseItems` on a printed non-empty array body. -/
def needItems : Json → List Json → Nat
  | v, [] => 1 + needJs v
  | v, w :: ws => 1 + max (needJs v) (needItems w ws)
termination_by v vs => sizeOf v + sizeOf vs

/-- Fuel sufficient for `parseFields` on a printed non-empty object body. -/
def needFields : (String × Json) → List (String × Json) → Nat
  | (k, v), [] => 1 + needJs v
  | (k, v), g :: gs => 1 + max (needJs v) (needFields g gs)
termination_by f fs => sizeOf f + sizeOf fs

end

/-! ## Theorems -/

/-- C7: in `run_reflection_loop`, a requested rounds value of 0 results in
exactly the configured maximum number of allowed rounds, and any requested
value greater than the configured maximum is clamped down to that maximum
(the stored configuration always satisfies `1 ≤ max`, see C8). -/
theorem c7_requested_rounds_clamped (config_max rounds : Nat)
    (hmax : 1 ≤ config_max) :
    reflection_requested_rounds config_max 0 = config_max
      ∧ (config_max < rounds →
          reflection_requested_rounds config_max rounds = config_max) := by
  unfold reflection_requested_rounds
  constructor
  · simp
    omega
  · intro h
    have hne : rounds ≠ 0 := by omega
    simp only [if_neg hne]
    omega

/-- Witness for C7 at the spec's example: configured max 3, requested 10. -/
theorem c7_requested_rounds_clamped_witness :
    reflection_requested_rounds 3 0 = 3
      ∧ (3 < 10 → reflection_requested_rounds 3 10 = 3) :=
  c7_requested_rounds_clamped 3 10 (by decide)

/-- C8: the configuration persisted by any team-mutating operation — all of
which write `save_team_config_written` (i.e. `normalize_team_config`) of the
updated config — has `max_reflection_rounds` in the range `[1, 8]`, whatever
the incoming value was. -/
theorem c8_max_reflection_rounds_invariant (team_config : TeamConfig)
    (camp_config : CampConfig) :
    1 ≤ (save_team_config_written team_config camp_config).max_reflection_rounds
      ∧ (save_team_config_written team_config camp_config).max_reflection_rounds
          ≤ 8 := by
  unfold save_team_config_written normalize_team_config
    TEAM_DEFAULT_MAX_REFLECTION_ROUNDS
  dsimp only
  split
  · omega
  · omega

/-- C10: for a camp whose configuration has `is_team = false`,
`get_team_status` returns the fixed empty status — regardless of the stored
team config, journal, or artifact listings, which it never reads — and the
default `max_reflection_rounds` is 2. -/
theorem c10_non_team_status (camp_config : CampConfig)
    (team_config : TeamConfig) (entries : List BusEntry)
    (draft_files promoted_files : List String)
    (h : camp_config.is_team = false) :
    get_team_status camp_config team_config entries draft_files promoted_files
        = { is_team := false
            supervisor_model := ""
            reflection_loops := false
            max_reflection_rounds := TEAM_DEFAULT_MAX_REFLECTION_ROUNDS
            agents := []
            steps := []
            bus_entries := 0
            artifacts := ⟨[], []⟩ }
      ∧ TEAM_DEFAULT_MAX_REFLECTION_ROUNDS = 2 := by
  constructor
  · unfold get_team_status
    rw [h]
    simp
  · rfl

/-- Witness for C10 at a concrete non-team camp. -/
theorem c10_non_team_status_witness :
    get_team_status ⟨"base-model", false⟩
        ⟨true, "sup", [], true, 5⟩
        [⟨"i", "t", .critique, "a", "supervisor", none, .null, ⟨1, 2⟩⟩]
        ["d.md"] ["p.md"]
        = { is_team := false
            supervisor_model := ""
            reflection_loops := false
            max_reflection_rounds := TEAM_DEFAULT_MAX_REFLECTION_ROUNDS
            agents := []
            steps := []
            bus_entries := 0
            artifacts := ⟨[], []⟩ }
      ∧ TEAM_DEFAULT_MAX_REFLECTION_ROUNDS = 2 :=
  c10_non_team_status ⟨"base-model", false⟩ ⟨true, "sup", [], true, 5⟩
    [⟨"i", "t", .critique, "a", "supervisor", none, .null, ⟨1, 2⟩⟩]
    ["d.md"] ["p.md"] rfl

/-- Unfolding one iteration of the tool loop on a successful response that
carries at least one tool call. -/
theorem runLoopAux_step (b64decode : String → Option String)
    (root : List String) (fuel : Nat) (resp : ChatResponse)
    (hresp : resp.tool_calls ≠ [])
    (responses : List (Except String ChatResponse)) (messages : List Json)
    (total : BusTokenUsage) (final : String) (writes : List String) (fs : Fs)
    (calls : Nat) :
    ∃ fs2 writes2 messages3,
      runLoopAux b64decode root (fuel + 1) (.ok resp :: responses) messages
          total final writes fs calls
        = runLoopAux b64decode root fuel responses messages3
            (accumulate_usage total resp.usage) (rustTrim resp.output_text)
            writes2 fs2 (calls + 1) := by
  obtain ⟨t, ts, htc⟩ : ∃ t ts, resp.tool_calls = t :: ts := by
    cases h : resp.tool_calls with
    | nil => exact absurd h hresp
    | cons t ts => exact ⟨t, ts, rfl⟩
  rcases h : runToolCalls b64decode root resp.tool_calls fs writes
      (messages ++ [Json.obj
        ([("role", Json.str "assistant"),
          ("content", resp.content.getD (.str resp.output_text))]
          ++ (if resp.tool_calls.isEmpty then []
              else [("tool_calls", Json.arr (resp.tool_calls.map ToolCall.render))]))])
    with ⟨fs2, writes2, messages3⟩
  refine ⟨fs2, writes2, messages3, ?_⟩
  simp only [runLoopAux]
  rw [htc] at h ⊢
  simp only [List.isEmpty_cons, Bool.false_eq_true, if_false] at h ⊢
  rw [h]

/-- The tool loop with `n` scripted responses that all succeed and all carry
tool calls runs all `n` iterations, makes exactly `n` further round trips,
and ends with the trimmed text of the last response, without error. -/
theorem runLoopAux_all_tool_calls (b64decode : String → Option String)
    (root : List String) :
    ∀ (front : List ChatResponse), front ≠ [] →
      (∀ r ∈ front, r.tool_calls ≠ []) →
      ∀ (rest : List (Except String ChatResponse)) (messages : List Json)
        (total : BusTokenUsage) (final : String) (writes : List String)
        (fs : Fs) (calls : Nat),
      ∃ resp usage writes2 fs2,
        front.getLast? = some resp
          ∧ runLoopAux b64decode root front.length
              (front.map Except.ok ++ rest) messages total final writes fs calls
            = (.ok ⟨rustTrim resp.output_text, usage, writes2⟩, fs2,
                calls + front.length) := by
  intro front
  induction front with
  | nil => intro h; exact absurd rfl h
  | cons r front' ih =>
    intro _ htools rest messages total final writes fs calls
    have hr : r.tool_calls ≠ [] := htools r (List.mem_cons_self r front')
    by_cases hne' : front' = []
    · subst hne'
      obtain ⟨fs2, writes2, messages3, hstep⟩ := runLoopAux_step b64decode root 0
        r hr rest messages total final writes fs calls
      refine ⟨r, accumulate_usage total r.usage, writes2, fs2, rfl, ?_⟩
      simp only [List.map_cons, List.map_nil, List.nil_append, List.cons_append,
        List.length_cons, List.length_nil]
      rw [hstep]
      simp [runLoopAux]
    · obtain ⟨fs2, writes2, messages3, hstep⟩ := runLoopAux_step b64decode root
        front'.length r hr (front'.map Except.ok ++ rest) messages total final
        writes fs calls
      obtain ⟨resp, usage, writes3, fs3, hlast, heq⟩ := ih hne'
        (fun x hx => htools x (List.mem_cons_of_mem r hx)) rest
        messages3 (accumulate_usage total r.usage) (rustTrim r.output_text)
        writes2 fs2 (calls + 1)
      refine ⟨resp, usage, writes3, fs3, ?_, ?_⟩
      · obtain ⟨s, front'', hfront'⟩ : ∃ s front'', front' = s :: front'' := by
          cases front' with
          | nil => exact absurd rfl hne'
          | cons s front'' => exact ⟨s, front'', rfl⟩
        subst hfront'
        rw [List.getLast?_cons_cons]
        exact hlast
      · simp only [List.map_cons, List.cons_append, List.length_cons]
        rw [hstep, heq]
        have harith : calls + 1 + front'.length = calls + (front'.length + 1) := by
          omega
        rw [harith]

/-- C4: when the assistant returns at least one tool call on every turn, the
tool loop of `execute_agent_step` performs exactly
`TEAM_MAX_TOOL_LOOPS = 6` request/response round trips, then terminates
without error, using the last captured (trimmed, possibly empty) assistant
text as the final output. -/
theorem c4_tool_loop_six_round_trips (b64decode : String → Option String)
    (root : List String) (messages : List Json) (fs : Fs)
    (r0 r1 r2 r3 r4 r5 : ChatResponse)
    (rest : List (Except String ChatResponse))
    (h0 : r0.tool_calls ≠ []) (h1 : r1.tool_calls ≠ [])
    (h2 : r2.tool_calls ≠ []) (h3 : r3.tool_calls ≠ [])
    (h4 : r4.tool_calls ≠ []) (h5 : r5.tool_calls ≠ []) :
    ∃ usage writes2 fs2,
      run_agent_inference_loop b64decode root
          ([r0, r1, r2, r3, r4, r5].map Except.ok ++ rest) messages fs
        = (.ok ⟨rustTrim r5.output_text, usage, writes2⟩, fs2, 6)
      ∧ TEAM_MAX_TOOL_LOOPS = 6 := by
  have htools : ∀ r ∈ [r0, r1, r2, r3, r4, r5], r.tool_calls ≠ [] := by
    intro r hmem
    simp only [List.mem_cons, List.mem_singleton, List.not_mem_nil, or_false]
      at hmem
    rcases hmem with h | h | h | h | h | h <;> subst h <;> assumption
  obtain ⟨resp, usage, writes2, fs2, hlast, heq⟩ :=
    runLoopAux_all_tool_calls b64decode root [r0, r1, r2, r3, r4, r5]
      (by simp) htools rest messages ⟨0, 0⟩ "" [] fs 0
  have hresp : resp = r5 := by
    simp only [List.getLast?_cons_cons, List.getLast?_singleton,
      Option.some.injEq] at hlast
    exact hlast.symm
  rw [hresp] at heq
  refine ⟨usage, writes2, fs2, ?_, rfl⟩
  unfold run_agent_inference_loop
  rw [show TEAM_MAX_TOOL_LOOPS = ([r0, r1, r2, r3, r4, r5] :
      List ChatResponse).length from rfl]
  rw [heq]
  norm_num

/-- Witness for C4: a concrete response, repeated six times, that always
issues one (unsupported) tool call. -/
theorem c4_tool_loop_six_round_trips_witness :
    ∃ usage writes2 fs2,
      run_agent_inference_loop (fun _ => none) ["root"]
          ([⟨"text", none, [⟨some "1", some "nosuch", some (.obj [])⟩], ⟨none, none⟩⟩,
            ⟨"text", none, [⟨some "1", some "nosuch", some (.obj [])⟩], ⟨none, none⟩⟩,
            ⟨"text", none, [⟨some "1", some "nosuch", some (.obj [])⟩], ⟨none, none⟩⟩,
            ⟨"text", none, [⟨some "1", some "nosuch", some (.obj [])⟩], ⟨none, none⟩⟩,
            ⟨"text", none, [⟨some "1", some "nosuch", some (.obj [])⟩], ⟨none, none⟩⟩,
            ⟨"text", none, [⟨some "1", some "nosuch", some (.obj [])⟩],
              ⟨none, none⟩⟩].map Except.ok ++ []) [] ⟨[]⟩
        = (.ok ⟨rustTrim "text", usage, writes2⟩, fs2, 6)
      ∧ TEAM_MAX_TOOL_LOOPS = 6 :=
  c4_tool_loop_six_round_trips (fun _ => none) ["root"] [] ⟨[]⟩
    ⟨"text", none, [⟨some "1", some "nosuch", some (.obj [])⟩], ⟨none, none⟩⟩
    ⟨"text", none, [⟨some "1", some "nosuch", some (.obj [])⟩], ⟨none, none⟩⟩
    ⟨"text", none, [⟨some "1", some "nosuch", some (.obj [])⟩], ⟨none, none⟩⟩
    ⟨"text", none, [⟨some "1", some "nosuch", some (.obj [])⟩], ⟨none, none⟩⟩
    ⟨"text", none, [⟨some "1", some "nosuch", some (.obj [])⟩], ⟨none, none⟩⟩
    ⟨"text", none, [⟨some "1", some "nosuch", some (.obj [])⟩], ⟨none, none⟩⟩
    [] (by simp) (by simp) (by simp) (by simp) (by simp) (by simp)

/-- C2 (amended): `get_team_status` derives each roster agent's display
status as "working" if any step of the current plan assigned to them is
"running"; otherwise "reflecting" if *any* journal entry (not necessarily
the most recent relevant one) is a Critique from that agent; otherwise
"idle".  The first conjunct ties the per-agent statuses produced by
`get_team_status` to `agent_display_status`; the second characterizes that
derivation. -/
theorem c2_agent_status_characterization (camp_config : CampConfig)
    (team_config : TeamConfig) (entries : List BusEntry)
    (draft_files promoted_files : List String)
    (hteam : camp_config.is_team = true) :
    (get_team_status camp_config team_config entries draft_files
        promoted_files).agents
      = (team_config.agents.map fun agent =>
          ⟨agent.id, agent.role, agent.model, agent.tool_subset,
            agent_display_status (team_step_statuses entries) entries agent.id,
            agent_usage_of entries agent.id, agent_last_preview entries agent.id⟩)
    ∧ (∀ (steps : List TeamStepStatus) (entries2 : List BusEntry) (aid : String),
        agent_display_status steps entries2 aid
          = if ∃ step ∈ steps, step.assigned_to = aid ∧ step.status = "running"
            then "working"
            else if ∃ e ∈ entries2, e.from_ = aid ∧ e.entry_type = .critique
            then "reflecting"
            else "idle") := by
  constructor
  · unfold get_team_status
    rw [hteam]
    simp
  · intro steps entries2 aid
    simp only [agent_display_status, List.any_eq_true, decide_eq_true_eq,
      List.mem_reverse]

/-- Witness for C2's amended theorem at a concrete team camp. -/
theorem c2_agent_status_characterization_witness :
    ((get_team_status ⟨"m", true⟩ ⟨true, "m", [⟨"a", "critic", "m", [], ""⟩], true, 2⟩
        [] [] []).agents
      = (([⟨"a", "critic", "m", [], ""⟩] : List TeamAgentConfig).map fun agent =>
          ⟨agent.id, agent.role, agent.model, agent.tool_subset,
            agent_display_status (team_step_statuses []) [] agent.id,
            agent_usage_of [] agent.id, agent_last_preview [] agent.id⟩))
    ∧ (∀ (steps : List TeamStepStatus) (entries2 : List BusEntry) (aid : String),
        agent_display_status steps entries2 aid
          = if ∃ step ∈ steps, step.assigned_to = aid ∧ step.status = "running"
            then "working"
            else if ∃ e ∈ entries2, e.from_ = aid ∧ e.entry_type = .critique
            then "reflecting"
            else "idle") :=
  c2_agent_status_characterization ⟨"m", true⟩
    ⟨true, "m", [⟨"a", "critic", "m", [], ""⟩], true, 2⟩ [] [] [] rfl

/-- C2 counterexample: with a journal holding a Critique from agent `a`
followed by a later Result from `a` (and no running steps), the code
reports "reflecting", while the spec's "most recent relevant entry"
derivation gives "idle". -/
theorem c2_counterexample :
    ((get_team_status ⟨"m", true⟩
          ⟨true, "m", [⟨"a", "critic", "m", [], ""⟩], true, 2⟩
          [⟨"1", "t1", .critique, "a", "supervisor", none, .null, ⟨0, 0⟩⟩,
            ⟨"2", "t2", .result, "a", "supervisor", none, .null, ⟨0, 0⟩⟩]
          [] []).agents.map TeamAgentStatus.status = ["reflecting"])
    ∧ agent_display_status_speced
        (team_step_statuses
          [⟨"1", "t1", .critique, "a", "supervisor", none, .null, ⟨0, 0⟩⟩,
            ⟨"2", "t2", .result, "a", "supervisor", none, .null, ⟨0, 0⟩⟩])
        [⟨"1", "t1", .critique, "a", "supervisor", none, .null, ⟨0, 0⟩⟩,
          ⟨"2", "t2", .result, "a", "supervisor", none, .null, ⟨0, 0⟩⟩]
        "a" = "idle"
    ∧ ("reflecting" : String) ≠ "idle" :=
  ⟨rfl, rfl, by decide⟩

/-- Membership survives `dropWhile` for an element the predicate rejects. -/
theorem mem_dropWhile_of_neg {α : Type} (p : α → Bool) (c : α) :
    ∀ (l : List α), p c = false → c ∈ l → c ∈ l.dropWhile p := by
  intro l
  induction l with
  | nil => intro _ h; exact absurd h (List.not_mem_nil c)
  | cons a l' ih =>
    intro hpc hmem
    by_cases hpa : p a = true
    · rw [List.dropWhile_cons_of_pos hpa]
      rcases List.mem_cons.mp hmem with h | h
      · subst h; rw [hpa] at hpc; exact absurd hpc (by simp)
      · exact ih hpc h
    · rw [List.dropWhile_cons_of_neg hpa]
      exact hmem

/-- A non-empty contiguous substring none of whose elements satisfy `p`
survives `dropWhile p`. -/
theorem infix_dropWhile_of_neg {α : Type} (p : α → Bool) (sub : List α)
    (hne : sub ≠ []) (hall : ∀ c ∈ sub, p c = false) :
    ∀ (l : List α), sub <:+: l → sub <:+: l.dropWhile p := by
  intro l
  induction l with
  | nil =>
    intro h
    rw [List.infix_nil] at h
    exact absurd h hne
  | cons a l' ih =>
    intro h
    by_cases hpa : p a = true
    · rw [List.dropWhile_cons_of_pos hpa]
      rcases List.infix_cons_iff.mp h with hpre | hinf
      · obtain ⟨x, xs, hx⟩ : ∃ x xs, sub = x :: xs := by
          cases sub with
          | nil => exact absurd rfl hne
          | cons x xs => exact ⟨x, xs, rfl⟩
        subst hx
        obtain ⟨t, ht⟩ := hpre
        have hxa : x = a := by
          simpa using congrArg (fun ll => ll.head?) ht
        have := hall x (List.mem_cons_self x xs)
        rw [hxa, hpa] at this
        exact absurd this (by simp)
      · exact ih hinf
    · rw [List.dropWhile_cons_of_neg hpa]
      exact h

/-- A non-whitespace character survives `trimChars`. -/
theorem mem_trimChars (c : Char) (l : List Char) (hc : wsChar c = false)
    (hmem : c ∈ l) : c ∈ trimChars l := by
  unfold trimChars trimEnd
  rw [List.mem_reverse]
  exact mem_dropWhile_of_neg wsChar c _ hc
    (List.mem_reverse.mpr (mem_dropWhile_of_neg wsChar c l hc hmem))

/-- A non-empty all-non-whitespace contiguous substring survives
`trimChars`. -/
theorem infix_trimChars (sub : List Char) (l : List Char) (hne : sub ≠ [])
    (hall : ∀ c ∈ sub, wsChar c = false) (h : sub <:+: l) :
    sub <:+: trimChars l := by
  unfold trimChars trimEnd
  have h1 : sub <:+: l.dropWhile wsChar := infix_dropWhile_of_neg wsChar sub hne hall l h
  have h2 : sub.reverse <:+: (l.dropWhile wsChar).reverse := by
    rw [List.reverse_infix]
    exact h1
  have h3 : sub.reverse <:+: ((l.dropWhile wsChar).reverse).dropWhile wsChar :=
    infix_dropWhile_of_neg wsChar sub.reverse
      (by simpa using hne)
      (fun c hc => hall c (List.mem_reverse.mp hc))
      _ h2
  have h4 := List.reverse_infix.mpr h3
  rwa [List.reverse_reverse] at h4

/-- `hasSub` decides contiguous-substring containment. -/
theorem hasSub_infix_iff (pat l : List Char) :
    hasSub pat l = true ↔ pat <:+: l := by
  induction l with
  | nil =>
    simp only [hasSub, List.isEmpty_iff, List.infix_nil]
  | cons a l' ih =>
    simp only [hasSub, Bool.or_eq_true, List.isPrefixOf_iff_prefix, ih,
      List.infix_cons_iff]

/-- `validate_simple_identifier` rejects any input containing `/`, `\` or
the two-character substring `..`. -/
theorem validate_simple_identifier_rejects (s : String)
    (hbad : s.data.contains '/' = true ∨ s.data.contains '\\' = true
      ∨ hasSub ['.', '.'] s.data = true) (field_name : String) :
    (validate_simple_identifier s field_name).isOk = false := by
  unfold validate_simple_identifier
  by_cases hempty : (rustTrim s).data.isEmpty = true
  · rw [if_pos hempty]
    rfl
  · rw [if_neg hempty]
    have hcond : ((rustTrim s).data.contains '/'
        || (rustTrim s).data.contains '\\'
        || hasSub ['.', '.'] (rustTrim s).data) = true := by
      rcases hbad with h | h | h
      · have hm : '/' ∈ trimChars s.data :=
          mem_trimChars '/' s.data (by decide) (List.elem_iff.mp h)
        have : (rustTrim s).data.contains '/' = true := List.elem_iff.mpr hm
        rw [this]
        simp
      · have hm : '\\' ∈ trimChars s.data :=
          mem_trimChars '\\' s.data (by decide) (List.elem_iff.mp h)
        have : (rustTrim s).data.contains '\\' = true := List.elem_iff.mpr hm
        rw [this]
        simp
      · have hm : ['.', '.'] <:+: trimChars s.data :=
          infix_trimChars ['.', '.'] s.data (by decide) (by decide)
            ((hasSub_infix_iff _ _).mp h)
        have : hasSub ['.', '.'] (rustTrim s).data = true :=
          (hasSub_infix_iff _ _).mpr hm
        rw [this]
        simp
    rw [if_pos hcond]
    rfl

/-- Every `depends_on` entry of a successfully validated dependency list
was accepted by `validate_simple_identifier`. -/
theorem validateDeps_ok_ids :
    ∀ (deps acc : List String), (validateDeps deps acc).isOk = true →
      ∀ dep ∈ deps,
        (validate_simple_identifier dep "depends_on").isOk = true := by
  intro deps
  induction deps with
  | nil => intro _ _ dep hdep; exact absurd hdep (List.not_mem_nil dep)
  | cons d ds ih =>
    intro acc h dep hdep
    rw [validateDeps] at h
    cases hv : validate_simple_identifier d "depends_on" with
    | error e => rw [hv] at h; exact absurd h (by simp [Except.isOk, Except.toBool])
    | ok nd =>
      rw [hv] at h
      dsimp only at h
      rcases List.mem_cons.mp hdep with hde | hde
      · subst hde; rw [hv]; rfl
      · by_cases hc : acc.contains nd = true
        · rw [if_pos hc] at h
          exact ih acc h dep hde
        · rw [if_neg hc] at h
          exact ih (acc ++ [nd]) h dep hde

/-- A step list that validates successfully had every `step_id`,
`assigned_to` and `depends_on` entry accepted by
`validate_simple_identifier`. -/
theorem validateSteps_ok_ids (roster : List String) :
    ∀ (steps accSteps : List DelegationStep) (stepIds : List String),
      (validateSteps roster steps accSteps stepIds).isOk = true →
      ∀ step ∈ steps,
        (validate_simple_identifier step.step_id "step_id").isOk = true
        ∧ (validate_simple_identifier step.assigned_to "assigned_to").isOk = true
        ∧ ∀ dep ∈ step.depends_on,
            (validate_simple_identifier dep "depends_on").isOk = true := by
  intro steps
  induction steps with
  | nil => intro _ _ _ step hmem; exact absurd hmem (List.not_mem_nil step)
  | cons step0 rest ih =>
    intro accSteps stepIds h step hmem
    rw [validateSteps] at h
    cases hv1 : validate_simple_identifier step0.step_id "step_id" with
    | error e => rw [hv1] at h; exact absurd h (by simp [Except.isOk, Except.toBool])
    | ok sid =>
      rw [hv1] at h
      dsimp only at h
      by_cases hdup : stepIds.contains sid = true
      · rw [if_pos hdup] at h; exact absurd h (by simp [Except.isOk, Except.toBool])
      · rw [if_neg hdup] at h
        cases hv2 : validate_simple_identifier step0.assigned_to "assigned_to" with
        | error e => rw [hv2] at h; exact absurd h (by simp [Except.isOk, Except.toBool])
        | ok aid =>
          rw [hv2] at h
          dsimp only at h
          by_cases hros : roster.contains aid = true
          · rw [if_neg (not_not_intro hros)] at h
            by_cases hinstr : (rustTrim step0.instruction).data.isEmpty = true
            · rw [if_pos hinstr] at h; exact absurd h (by simp [Except.isOk, Except.toBool])
            · rw [if_neg hinstr] at h
              cases hd : validateDeps step0.depends_on [] with
              | error e => rw [hd] at h; exact absurd h (by simp [Except.isOk, Except.toBool])
              | ok deps =>
                rw [hd] at h
                dsimp only at h
                rcases List.mem_cons.mp hmem with heq | hmem2
                · subst heq
                  refine ⟨by rw [hv1]; rfl, by rw [hv2]; rfl, ?_⟩
                  exact validateDeps_ok_ids step.depends_on []
                    (by rw [hd]; rfl)
                · exact ih _ _ h step hmem2
          · rw [if_pos hros] at h
            exact absurd h (by simp [Except.isOk, Except.toBool])

/-- C9: any string containing `/`, `\` or the substring `..` (even embedded
in a longer name) is rejected by `validate_simple_identifier`; consequently
`create_team_agent` rejects it as an agent id, and
`validate_decomposition_plan` rejects any plan using it as a `step_id`,
`assigned_to` or `depends_on` value. -/
theorem c9_separator_and_traversal_rejection (s : String)
    (hbad : s.data.contains '/' = true ∨ s.data.contains '\\' = true
      ∨ hasSub ['.', '.'] s.data = true) :
    (∀ field_name, (validate_simple_identifier s field_name).isOk = false)
    ∧ (∀ (team_config : TeamConfig) (role model : String)
        (tools : List String) (desc : String),
        (create_team_agent_core team_config
          ⟨s, role, model, tools, desc⟩).isOk = false)
    ∧ (∀ (team_config : TeamConfig) (plan : DecompositionPlan),
        (∃ step ∈ plan.steps,
          step.step_id = s ∨ step.assigned_to = s ∨ s ∈ step.depends_on) →
        (validate_decomposition_plan team_config plan).isOk = false) := by
  have hrej := validate_simple_identifier_rejects s hbad
  refine ⟨hrej, ?_, ?_⟩
  · intro team_config role model tools desc
    unfold create_team_agent_core
    cases hv : validate_simple_identifier s "agent_config.id" with
    | error e => rfl
    | ok v =>
      have := hrej "agent_config.id"
      rw [hv] at this
      exact absurd this (by simp [Except.isOk, Except.toBool])
  · intro team_config plan ⟨step, hmem, hpos⟩
    unfold validate_decomposition_plan
    dsimp only
    by_cases hsteps : plan.steps.isEmpty = true
    · rw [if_pos hsteps]; rfl
    · rw [if_neg hsteps]
      cases hvs : validateSteps (team_config.agents.map TeamAgentConfig.id)
          plan.steps [] [] with
      | error e => rfl
      | ok r =>
        exfalso
        have hok : (validateSteps (team_config.agents.map TeamAgentConfig.id)
            plan.steps [] []).isOk = true := by
          rw [hvs]; rfl
        obtain ⟨h1, h2, h3⟩ := validateSteps_ok_ids
          (team_config.agents.map TeamAgentConfig.id) plan.steps [] [] hok
          step hmem
        rcases hpos with hp | hp | hp
        · rw [hp, hrej "step_id"] at h1
          exact absurd h1 (by simp)
        · rw [hp, hrej "assigned_to"] at h2
          exact absurd h2 (by simp)
        · have := h3 s hp
          rw [hrej "depends_on"] at this
          exact absurd this (by simp)

/-- Witness for C9 at the claim's embedded example `"a..b"`. -/
theorem c9_separator_and_traversal_rejection_witness :
    (∀ field_name, (validate_simple_identifier "a..b" field_name).isOk = false)
    ∧ (∀ (team_config : TeamConfig) (role model : String)
        (tools : List String) (desc : String),
        (create_team_agent_core team_config
          ⟨"a..b", role, model, tools, desc⟩).isOk = false)
    ∧ (∀ (team_config : TeamConfig) (plan : DecompositionPlan),
        (∃ step ∈ plan.steps,
          step.step_id = "a..b" ∨ step.assigned_to = "a..b"
            ∨ "a..b" ∈ step.depends_on) →
        (validate_decomposition_plan team_config plan).isOk = false) :=
  c9_separator_and_traversal_rejection "a..b" (Or.inr (Or.inr (by decide)))

/-- A successful `validate_simple_identifier` returns the trimmed input. -/
theorem validate_simple_identifier_ok_eq {s field_name v : String}
    (h : validate_simple_identifier s field_name = .ok v) : v = rustTrim s := by
  unfold validate_simple_identifier at h
  by_cases h1 : (rustTrim s).data.isEmpty = true
  · rw [if_pos h1] at h; exact absurd h (by simp)
  · rw [if_neg h1] at h
    by_cases h2 : ((rustTrim s).data.contains '/' || (rustTrim s).data.contains '\\'
        || hasSub ['.', '.'] (rustTrim s).data) = true
    · rw [if_pos h2] at h; exact absurd h (by simp)
    · rw [if_neg h2] at h
      exact (Except.ok.inj h).symm

/-- `validateDeps` preserves its accumulator and records the trimmed form of
every dependency. -/
theorem validateDeps_ok_mem :
    ∀ (deps acc out : List String), validateDeps deps acc = .ok out →
      (∀ x ∈ acc, x ∈ out)
        ∧ ∀ d ∈ deps, rustTrim d ∈ out := by
  intro deps
  induction deps with
  | nil =>
    intro acc out h
    rw [validateDeps] at h
    have : acc = out := by
      have := (Except.ok.injEq _ _ ▸ h)
      simpa using h
    subst this
    exact ⟨fun x hx => hx, fun d hd => absurd hd (List.not_mem_nil d)⟩
  | cons d ds ih =>
    intro acc out h
    rw [validateDeps] at h
    cases hv : validate_simple_identifier d "depends_on" with
    | error e => rw [hv] at h; exact absurd h (by simp)
    | ok nd =>
      rw [hv] at h
      dsimp only at h
      have hnd : nd = rustTrim d := validate_simple_identifier_ok_eq hv
      by_cases hc : acc.contains nd = true
      · rw [if_pos hc] at h
        obtain ⟨hacc, hds⟩ := ih acc out h
        refine ⟨hacc, fun x hx => ?_⟩
        rcases List.mem_cons.mp hx with hx1 | hx1
        · subst hx1
          rw [← hnd]
          exact hacc nd (List.elem_iff.mp hc)
        · exact hds x hx1
      · rw [if_neg hc] at h
        obtain ⟨hacc, hds⟩ := ih (acc ++ [nd]) out h
        refine ⟨fun x hx => hacc x (List.mem_append_left _ hx), fun x hx => ?_⟩
        rcases List.mem_cons.mp hx with hx1 | hx1
        · subst hx1
          rw [← hnd]
          exact hacc nd (List.mem_append_right _ (List.mem_singleton.mpr rfl))
        · exact hds x hx1

/-- A successful `checkDeps` pass means every dependency of every step names
a known step id. -/
theorem checkDeps_ok (stepIds : List String) :
    ∀ (steps : List DelegationStep), (checkDeps stepIds steps).isOk = true →
      ∀ st ∈ steps, ∀ d ∈ st.depends_on, d ∈ stepIds := by
  intro steps
  induction steps with
  | nil => intro _ st hst; exact absurd hst (List.not_mem_nil st)
  | cons step0 rest ih =>
    intro h st hst d hd
    rw [checkDeps] at h
    cases hf : step0.depends_on.find? (fun dep => ¬ stepIds.contains dep) with
    | some dep => rw [hf] at h; exact absurd h (by simp [Except.isOk, Except.toBool])
    | none =>
      rw [hf] at h
      dsimp only at h
      rcases List.mem_cons.mp hst with hst1 | hst1
      · subst hst1
        have := List.find?_eq_none.mp hf d hd
        simp only [decide_not, Bool.not_eq_eq_eq_not, Bool.not_true,
          decide_eq_false_iff_not, Decidable.not_not] at this
        exact List.elem_iff.mp this
      · exact ih h st hst1 d hd

/-- The full bookkeeping of a successful first validation pass: the
accumulator is preserved, the returned step-id list extends the accumulated
one with the trimmed incoming step ids (exactly the ids of the returned
steps), freshness of ids is maintained, every newly produced step is
assigned to a roster agent, and every incoming step yields an output step
carrying the trimmed forms of its dependencies. -/
theorem validateSteps_ok_spec (roster : List String) :
    ∀ (steps accSteps : List DelegationStep) (stepIds : List String)
      (outSteps : List DelegationStep) (outIds : List String),
      validateSteps roster steps accSteps stepIds = .ok (outSteps, outIds) →
      (∀ x ∈ accSteps, x ∈ outSteps)
      ∧ outIds = stepIds ++ steps.map (fun st => rustTrim st.step_id)
      ∧ outSteps.map DelegationStep.step_id
          = accSteps.map DelegationStep.step_id
            ++ steps.map (fun st => rustTrim st.step_id)
      ∧ (stepIds.Nodup → outIds.Nodup)
      ∧ (∀ st ∈ outSteps, st ∈ accSteps ∨ st.assigned_to ∈ roster)
      ∧ (∀ st ∈ steps, ∃ out ∈ outSteps,
          out.step_id = rustTrim st.step_id
          ∧ ∀ d ∈ st.depends_on, rustTrim d ∈ out.depends_on) := by
  intro steps
  induction steps with
  | nil =>
    intro accSteps stepIds outSteps outIds h
    rw [validateSteps] at h
    have hpair : accSteps = outSteps ∧ stepIds = outIds := by
      have := Except.ok.inj h
      exact ⟨congrArg Prod.fst this, congrArg Prod.snd this⟩
    obtain ⟨h1, h2⟩ := hpair
    subst h1; subst h2
    refine ⟨fun x hx => hx, by simp, by simp, fun hnd => hnd,
      fun st hst => Or.inl hst, fun st hst => absurd hst (List.not_mem_nil st)⟩
  | cons step0 rest ih =>
    intro accSteps stepIds outSteps outIds h
    rw [validateSteps] at h
    cases hv1 : validate_simple_identifier step0.step_id "step_id" with
    | error e => rw [hv1] at h; exact absurd h (by simp)
    | ok sid =>
      rw [hv1] at h
      dsimp only at h
      have hsid : sid = rustTrim step0.step_id :=
        validate_simple_identifier_ok_eq hv1
      by_cases hdup : stepIds.contains sid = true
      · rw [if_pos hdup] at h; exact absurd h (by simp)
      · rw [if_neg hdup] at h
        cases hv2 : validate_simple_identifier step0.assigned_to "assigned_to" with
        | error e => rw [hv2] at h; exact absurd h (by simp)
        | ok aid =>
          rw [hv2] at h
          dsimp only at h
          by_cases hros : roster.contains aid = true
          · rw [if_neg (not_not_intro hros)] at h
            by_cases hinstr : (rustTrim step0.instruction).data.isEmpty = true
            · rw [if_pos hinstr] at h; exact absurd h (by simp)
            · rw [if_neg hinstr] at h
              cases hd : validateDeps step0.depends_on [] with
              | error e => rw [hd] at h; exact absurd h (by simp)
              | ok deps =>
                rw [hd] at h
                dsimp only at h
                obtain ⟨ihA, ihB, ihC, ihD, ihE, ihF⟩ := ih _ _ _ _ h
                set validated : DelegationStep :=
                  { step_id := sid
                    assigned_to := aid
                    instruction := step0.instruction
                    depends_on := deps
                    expected_output :=
                      if (rustTrim step0.expected_output).data.isEmpty = true
                      then sid ++ ".md"
                      else step0.expected_output } with hvalidated
                have hvalmem : validated ∈ outSteps :=
                  ihA validated (List.mem_append_right _ (List.mem_singleton.mpr rfl))
                refine ⟨?_, ?_, ?_, ?_, ?_, ?_⟩
                · intro x hx
                  exact ihA x (List.mem_append_left _ hx)
                · rw [ihB]
                  simp only [List.map_cons, hsid]
                  simp
                · rw [ihC]
                  have hvs : validated.step_id = sid := rfl
                  simp only [List.map_append, List.map_cons, List.map_nil,
                    hvs, hsid]
                  simp
                · intro hnd
                  refine ihD ?_
                  rw [List.nodup_append]
                  refine ⟨hnd, List.nodup_singleton sid, ?_⟩
                  intro a ha hb
                  rw [List.mem_singleton] at hb
                  subst hb
                  exact hdup (List.elem_iff.mpr ha)
                · intro st hst
                  rcases ihE st hst with hst1 | hst1
                  · rcases List.mem_append.mp hst1 with hst2 | hst2
                    · exact Or.inl hst2
                    · rw [List.mem_singleton] at hst2
                      subst hst2
                      exact Or.inr (List.elem_iff.mp hros)
                  · exact Or.inr hst1
                · intro st hst
                  rcases List.mem_cons.mp hst with hst1 | hst1
                  · subst hst1
                    refine ⟨validated, hvalmem, by rw [hvalidated, ← hsid], ?_⟩
                    intro d hdmem
                    exact (validateDeps_ok_mem st.depends_on [] deps hd).2 d hdmem
                  · exact ihF st hst1
          · rw [if_pos hros] at h
            exact absurd h (by simp)

/-- C3 (amended): every plan accepted by `validate_decomposition_plan` has
all `assigned_to` values in the roster, all dependencies naming step ids of
the plan, and pairwise-distinct step ids; every plan containing a
dependency on a step id absent from the plan is rejected; and on the spec's
Scenario B instance (step `s2` depending on the non-existent `s99`, with no
earlier validation failure) the error names both `s2` and `s99`. -/
theorem c3_plan_validation (team_config : TeamConfig)
    (plan outPlan : DecompositionPlan)
    (h : validate_decomposition_plan team_config plan = .ok outPlan) :
    ((∀ st ∈ outPlan.steps,
        st.assigned_to ∈ team_config.agents.map TeamAgentConfig.id)
      ∧ (∀ st ∈ outPlan.steps, ∀ d ∈ st.depends_on,
          d ∈ outPlan.steps.map DelegationStep.step_id)
      ∧ (outPlan.steps.map DelegationStep.step_id).Nodup)
    ∧ (∀ (tc2 : TeamConfig) (plan2 : DecompositionPlan),
        (∃ st ∈ plan2.steps, ∃ d ∈ st.depends_on,
          rustTrim d ∉ plan2.steps.map (fun s2 => rustTrim s2.step_id)) →
        (validate_decomposition_plan tc2 plan2).isOk = false)
    ∧ validate_decomposition_plan
        ⟨true, "m", [⟨"a", "worker", "m", [], ""⟩], true, 2⟩
        ⟨"T", [⟨"s1", "a", "x", [], "o.md"⟩, ⟨"s2", "a", "y", ["s99"], "o2.md"⟩],
          false⟩
        = .error "Step `s2` depends on unknown step `s99`." := by
  refine ⟨?_, ?_, by rfl⟩
  · unfold validate_decomposition_plan at h
    dsimp only at h
    by_cases hsteps : plan.steps.isEmpty = true
    · rw [if_pos hsteps] at h; exact absurd h (by simp)
    · rw [if_neg hsteps] at h
      cases hvs : validateSteps (team_config.agents.map TeamAgentConfig.id)
          plan.steps [] [] with
      | error e => rw [hvs] at h; exact absurd h (by simp)
      | ok r =>
        rw [hvs] at h
        obtain ⟨steps, stepIds⟩ := r
        dsimp only at h
        cases hcd : checkDeps stepIds steps with
        | error e => rw [hcd] at h; exact absurd h (by simp)
        | ok u =>
          rw [hcd] at h
          dsimp only at h
          have hout : outPlan.steps = steps :=
            (congrArg DecompositionPlan.steps (Except.ok.inj h)).symm
          obtain ⟨_, hB, hC, hD, hE, _⟩ := validateSteps_ok_spec
            (team_config.agents.map TeamAgentConfig.id) plan.steps [] []
            steps stepIds hvs
          have hids : stepIds = steps.map DelegationStep.step_id := by
            rw [hB, hC]
            simp
          refine ⟨?_, ?_, ?_⟩
          · intro st hst
            rw [hout] at hst
            rcases hE st hst with h1 | h1
            · exact absurd h1 (List.not_mem_nil st)
            · exact h1
          · intro st hst d hd
            rw [hout] at hst ⊢
            have := checkDeps_ok stepIds steps (by rw [hcd]; rfl) st hst d hd
            rw [hids] at this
            exact this
          · rw [hout, ← hids]
            exact hD List.nodup_nil
  · intro tc2 plan2 ⟨st, hst, d, hd, hnotin⟩
    unfold validate_decomposition_plan
    dsimp only
    by_cases hsteps : plan2.steps.isEmpty = true
    · rw [if_pos hsteps]; rfl
    · rw [if_neg hsteps]
      cases hvs : validateSteps (tc2.agents.map TeamAgentConfig.id)
          plan2.steps [] [] with
      | error e => rfl
      | ok r =>
        obtain ⟨steps, stepIds⟩ := r
        dsimp only
        cases hcd : checkDeps stepIds steps with
        | error e => rfl
        | ok u =>
          exfalso
          obtain ⟨_, hB, _, _, _, hF⟩ := validateSteps_ok_spec
            (tc2.agents.map TeamAgentConfig.id) plan2.steps [] []
            steps stepIds hvs
          obtain ⟨out, hout, _, hdeps⟩ := hF st hst
          have hmem : rustTrim d ∈ stepIds :=
            checkDeps_ok stepIds steps (by rw [hcd]; rfl) out hout
              (rustTrim d) (hdeps d hd)
          rw [hB] at hmem
          simp only [List.nil_append] at hmem
          exact hnotin hmem

/-- C3 counterexample: a plan containing step `s2` with unknown dependency
`s99` can fail validation with an error that names neither `s2` nor `s99`,
when an earlier step fails a different check first (here `s1` is assigned
to an unknown agent). -/
theorem c3_counterexample :
    validate_decomposition_plan
        ⟨true, "m", [⟨"a", "worker", "m", [], ""⟩], true, 2⟩
        ⟨"T", [⟨"s1", "b", "x", [], "o.md"⟩, ⟨"s2", "a", "y", ["s99"], "o2.md"⟩],
          false⟩
        = .error "Decomposition step `s1` assigned to unknown agent `b`."
    ∧ hasSubStr "s99"
        "Decomposition step `s1` assigned to unknown agent `b`." = false
    ∧ hasSubStr "s2"
        "Decomposition step `s1` assigned to unknown agent `b`." = false :=
  ⟨rfl, by decide, by decide⟩

/-- Witness for C3 at a concrete accepted plan. -/
theorem c3_plan_validation_witness :
    ((∀ st ∈ ([⟨"s1", "a", "x", [], "o.md"⟩,
          ⟨"s2", "a", "y", ["s1"], "s2.md"⟩] : List DelegationStep),
        st.assigned_to ∈ (⟨true, "m", [⟨"a", "worker", "m", [], ""⟩], true, 2⟩
          : TeamConfig).agents.map TeamAgentConfig.id)
      ∧ (∀ st ∈ ([⟨"s1", "a", "x", [], "o.md"⟩,
            ⟨"s2", "a", "y", ["s1"], "s2.md"⟩] : List DelegationStep),
          ∀ d ∈ st.depends_on,
          d ∈ ([⟨"s1", "a", "x", [], "o.md"⟩,
            ⟨"s2", "a", "y", ["s1"], "s2.md"⟩] : List DelegationStep).map
              DelegationStep.step_id)
      ∧ (([⟨"s1", "a", "x", [], "o.md"⟩,
            ⟨"s2", "a", "y", ["s1"], "s2.md"⟩] : List DelegationStep).map
              DelegationStep.step_id).Nodup)
    ∧ (∀ (tc2 : TeamConfig) (plan2 : DecompositionPlan),
        (∃ st ∈ plan2.steps, ∃ d ∈ st.depends_on,
          rustTrim d ∉ plan2.steps.map (fun s2 => rustTrim s2.step_id)) →
        (validate_decomposition_plan tc2 plan2).isOk = false)
    ∧ validate_decomposition_plan
        ⟨true, "m", [⟨"a", "worker", "m", [], ""⟩], true, 2⟩
        ⟨"T", [⟨"s1", "a", "x", [], "o.md"⟩, ⟨"s2", "a", "y", ["s99"], "o2.md"⟩],
          false⟩
        = .error "Step `s2` depends on unknown step `s99`." :=
  c3_plan_validation ⟨true, "m", [⟨"a", "worker", "m", [], ""⟩], true, 2⟩
    ⟨"T", [⟨"s1", "a", "x", [], "o.md"⟩, ⟨"s2", "a", "y", ["s1"], ""⟩], false⟩
    ⟨"T", [⟨"s1", "a", "x", [], "o.md"⟩, ⟨"s2", "a", "y", ["s1"], "s2.md"⟩], false⟩
    (by rfl)

/-- C6: whenever `run_reflection_loop` finishes its critique loop — whether
or not the critic ever passed — the draft is moved into the promoted
directory and a Promotion entry carrying `pass`/`rounds_completed` is
journaled; and in the spec's Scenario D (configured max 2, reflection on,
rounds 0 requested, critic always failing) the summary reports
`rounds_completed = 2` and `pass = false` while the artifact is still
promoted. -/
theorem c6_reflection_always_promotes (env : ReflectionEnv)
    (team_config : TeamConfig) (writer critic : TeamAgentConfig)
    (artifact_path : String) (rounds : Nat) (draftName body0 : String)
    (drafts promoted : List String) (journal0 : List BusEntry)
    (promoteTs : String)
    (hw : find_agent_by_role team_config "writer" = some writer)
    (hc : find_agent_by_role team_config "critic" = some critic)
    (hdraft : drafts.contains draftName = true) :
    ∃ outcome,
      run_reflection_loop_core env team_config artifact_path rounds draftName
          body0 drafts promoted journal0 promoteTs = .ok outcome
      ∧ outcome.promoted
          = promoted ++ [unique_promoted_target promoted draftName promoteTs]
      ∧ outcome.drafts = drafts.erase draftName
      ∧ outcome.summary.promoted_path
          = "artifacts/promoted/"
            ++ unique_promoted_target promoted draftName promoteTs
      ∧ (∃ e ∈ outcome.journal, e.entry_type = .promotion
          ∧ e.content.getField "pass" = some (.bool outcome.summary.pass)
          ∧ e.content.getField "rounds_completed"
              = some (.num outcome.summary.rounds_completed))
      ∧ (team_config.max_reflection_rounds = 2 →
          team_config.reflection_loops = true → rounds = 0 →
          (∀ i, (env.critic i).pass = false) →
          outcome.summary.rounds_completed = 2
            ∧ outcome.summary.pass = false) := by
  unfold run_reflection_loop_core
  rw [hw, hc]
  dsimp only
  rw [if_neg (not_not_intro hdraft)]
  refine ⟨_, rfl, ?_, ?_, ?_, ?_, ?_⟩
  · simp [move_draft_to_promoted]
  · simp [move_draft_to_promoted]
  · simp [move_draft_to_promoted]
  · refine ⟨_, List.mem_append_right _ (List.mem_singleton.mpr rfl), rfl, ?_, ?_⟩
    · simp [make_bus_entry, Json.getField, move_draft_to_promoted]
    · simp [make_bus_entry, Json.getField, move_draft_to_promoted]
  · intro hmax hrl hrounds hfail
    subst hrounds
    rw [hmax, hrl]
    have hreq : reflection_requested_rounds 2 0 = 2 := rfl
    rw [hreq]
    have hrange : List.range' 1 2 = [1, 2] := rfl
    rw [hrange]
    simp only [reflection_rounds, hfail 1, hfail 2, Bool.false_eq_true,
      if_false, List.isEmpty_cons, List.isEmpty_nil, not_true, false_or,
      or_false, if_true, if_false]
    simp

/-- Witness for C6 at Scenario D: max 2 rounds, critic always failing. -/
theorem c6_reflection_always_promotes_witness :
    ∃ outcome,
      run_reflection_loop_core
          ⟨fun _ => ⟨["i"], [], false⟩, fun _ => ⟨1, 1⟩, fun _ => "revised",
            fun _ => ⟨1, 1⟩, fun _ => "id", fun _ => "ts"⟩
          ⟨true, "m", [⟨"critic", "critic", "m", [], ""⟩,
            ⟨"writer", "writer", "m", [], ""⟩], true, 2⟩
          "artifacts/drafts/d.md" 0 "d.md" "body" ["d.md"] [] [] "123"
          = .ok outcome
      ∧ outcome.promoted = [] ++ [unique_promoted_target [] "d.md" "123"]
      ∧ outcome.drafts = (["d.md"] : List String).erase "d.md"
      ∧ outcome.summary.promoted_path
          = "artifacts/promoted/" ++ unique_promoted_target [] "d.md" "123"
      ∧ (∃ e ∈ outcome.journal, e.entry_type = .promotion
          ∧ e.content.getField "pass" = some (.bool outcome.summary.pass)
          ∧ e.content.getField "rounds_completed"
              = some (.num outcome.summary.rounds_completed))
      ∧ ((⟨true, "m", [⟨"critic", "critic", "m", [], ""⟩,
            ⟨"writer", "writer", "m", [], ""⟩], true, 2⟩
              : TeamConfig).max_reflection_rounds = 2 →
          (⟨true, "m", [⟨"critic", "critic", "m", [], ""⟩,
            ⟨"writer", "writer", "m", [], ""⟩], true, 2⟩
              : TeamConfig).reflection_loops = true → (0 : Nat) = 0 →
          (∀ i, ((⟨fun _ => ⟨["i"], [], false⟩, fun _ => ⟨1, 1⟩,
            fun _ => "revised", fun _ => ⟨1, 1⟩, fun _ => "id",
            fun _ => "ts"⟩ : ReflectionEnv).critic i).pass = false) →
          outcome.summary.rounds_completed = 2
            ∧ outcome.summary.pass = false) :=
  c6_reflection_always_promotes
    ⟨fun _ => ⟨["i"], [], false⟩, fun _ => ⟨1, 1⟩, fun _ => "revised",
      fun _ => ⟨1, 1⟩, fun _ => "id", fun _ => "ts"⟩
    ⟨true, "m", [⟨"critic", "critic", "m", [], ""⟩,
      ⟨"writer", "writer", "m", [], ""⟩], true, 2⟩
    ⟨"writer", "writer", "m", [], ""⟩ ⟨"critic", "critic", "m", [], ""⟩
    "artifacts/drafts/d.md" 0 "d.md" "body" ["d.md"] [] [] "123"
    (by rfl) (by rfl) (by rfl)

/-- Writing one file changes exactly that path in the model filesystem. -/
theorem Fs.get_write (fs : Fs) (p q : List String) (c : String) :
    (fs.write p c).get q = if p = q then some c else fs.get q := by
  unfold Fs.get Fs.write
  simp only [List.find?]
  by_cases h : p = q
  · subst h
    simp
  · simp [h]

/-- A successful `resolve_write_agent_target` returns a strict extension of
the context root by validated normal components. -/
theorem resolve_write_agent_target_ok (root : List String) (p : String)
    (target : List String)
    (h : resolve_write_agent_target root p = .ok target) :
    ∃ rel, target = root ++ rel := by
  unfold resolve_write_agent_target at h
  cases hv : validate_relative_path p "path" false with
  | error e => rw [hv] at h; exact absurd h (by simp)
  | ok rel =>
    rw [hv] at h
    dsimp only at h
    cases he : ensure_within_root root (root ++ rel).dropLast with
    | error e => rw [he] at h; exact absurd h (by simp)
    | ok u =>
      rw [he] at h
      dsimp only at h
      exact ⟨rel, (Except.ok.inj h).symm⟩

/-- A path whose trimmed form is absolute or contains a non-normal
component is rejected by `validate_relative_path` with one of its two fixed
messages. -/
theorem validate_relative_path_rejects (p field_name : String)
    (hbad : pathIsAbsolute (rustTrim p) = true
      ∨ (pathComponents (rustTrim p)).any
          (fun comp => comp = PathComp.curDir ∨ comp = PathComp.parentDir)
          = true) :
    validate_relative_path p field_name false
        = .error (field_name ++ " must be a relative path.")
    ∨ validate_relative_path p field_name false
        = .error (field_name
            ++ " must not contain traversal segments or absolute path markers.") := by
  unfold validate_relative_path
  by_cases hempty : (rustTrim p).data.isEmpty = true
  · exfalso
    have hdata : (rustTrim p).data = [] := by
      simpa [List.isEmpty_iff] using hempty
    rcases hbad with h | h
    · unfold pathIsAbsolute at h
      rw [hdata] at h
      simp at h
    · unfold pathComponents pathPieces at h
      rw [hdata] at h
      simp at h
  · rw [if_neg hempty]
    by_cases habs : pathIsAbsolute (rustTrim p) = true
    · rw [if_pos habs]
      exact Or.inl rfl
    · rw [if_neg habs]
      have hany : (pathComponents (rustTrim p)).any
          (fun comp => comp = PathComp.curDir ∨ comp = PathComp.parentDir)
          = true := by
        rcases hbad with h | h
        · exact absurd h habs
        · exact h
      rw [if_pos hany]
      exact Or.inr rfl

/-- C1 (amended): a `write_file` tool call whose path argument, after
trimming, is absolute (leading `/`) or contains a traversal (`..`) or
current-directory component is rejected before any filesystem mutation —
with the `validate_relative_path` message, not the "escapes the agent
context directory" message, which is reserved for the canonical-prefix
check; and every path a `write_file` call does create or modify lies under
the canonicalized agent context root.  (Under Unix path semantics a `\` is
an ordinary file-name character, so `\`-paths are not rejected — but they
too can only create files inside the root.) -/
theorem c1_write_file_sandbox (b64decode : String → Option String)
    (root : List String) (args : Json) (fs : Fs) (p c : String)
    (hpath : (args.getField "path").bind Json.asStr = some p)
    (hcontent : (args.getField "content").bind Json.asStr = some c)
    (hbad : pathIsAbsolute (rustTrim p) = true
      ∨ (pathComponents (rustTrim p)).any
          (fun comp => comp = PathComp.curDir ∨ comp = PathComp.parentDir)
          = true) :
    (∃ msg, (write_file_tool b64decode root args fs).1 = .error msg
      ∧ hasSubStr "escapes the agent context directory" msg = false
      ∧ (write_file_tool b64decode root args fs).2 = fs)
    ∧ (∀ (args2 : Json) (fs2 : Fs) (q : List String),
        (write_file_tool b64decode root args2 fs2).2.get q ≠ fs2.get q →
        root.isPrefixOf q = true) := by
  constructor
  · have hrej := validate_relative_path_rejects p "path" hbad
    have hresolve : ∀ msg, validate_relative_path p "path" false = .error msg →
        resolve_write_agent_target root p = .error msg := by
      intro msg hmsg
      unfold resolve_write_agent_target
      rw [hmsg]
    unfold write_file_tool
    rw [hpath, hcontent]
    dsimp only
    rcases hrej with hmsg | hmsg
    · rw [hresolve _ hmsg]
      exact ⟨_, rfl, by decide, rfl⟩
    · rw [hresolve _ hmsg]
      exact ⟨_, rfl, by decide, rfl⟩
  · intro args2 fs2 q hne
    unfold write_file_tool at hne
    cases hp2 : (args2.getField "path").bind Json.asStr with
    | none => rw [hp2] at hne; exact absurd rfl hne
    | some path2 =>
      rw [hp2] at hne
      dsimp only at hne
      cases hc2 : (args2.getField "content").bind Json.asStr with
      | none => rw [hc2] at hne; exact absurd rfl hne
      | some content2 =>
        rw [hc2] at hne
        dsimp only at hne
        cases hres : resolve_write_agent_target root path2 with
        | error e => rw [hres] at hne; exact absurd rfl hne
        | ok target =>
          rw [hres] at hne
          dsimp only at hne
          obtain ⟨rel, hrel⟩ := resolve_write_agent_target_ok root path2 target hres
          have htarget : root.isPrefixOf target = true := by
            rw [hrel]
            exact List.isPrefixOf_iff_prefix.mpr (List.prefix_append root rel)
          cases hdec : (if (match (args2.getField "encoding").bind Json.asStr with
              | some e => strAsciiLower e
              | none => "utf-8") = "base64" then
                match b64decode content2 with
                | some decoded => Except.ok decoded
                | none => Except.error "Invalid base64 content."
              else Except.ok content2 : Except String String) with
          | error e =>
            rw [hdec] at hne
            exact absurd rfl hne
          | ok bytes =>
            rw [hdec] at hne
            dsimp only at hne
            have hwq : (fs2.write target bytes).get q ≠ fs2.get q := by
              cases hens : ensure_within_root root target with
              | error e => rw [hens] at hne; exact hne
              | ok u => rw [hens] at hne; exact hne
            rw [Fs.get_write] at hwq
            by_cases heq : target = q
            · subst heq
              exact htarget
            · rw [if_neg heq] at hwq
              exact absurd rfl hwq

/-- C1 counterexample: for `path = "../../etc/passwd"` the error message is
the `validate_relative_path` one and does not contain "escapes the agent
context directory"; and a `\`-path is not rejected at all under Unix path
semantics (it names an ordinary file inside the context directory). -/
theorem c1_counterexample :
    (write_file_tool (fun _ => none) ["ctx"]
        (.obj [("path", .str "../../etc/passwd"), ("content", .str "x")])
        ⟨[]⟩).1
      = .error "path must not contain traversal segments or absolute path markers."
    ∧ hasSubStr "escapes the agent context directory"
        "path must not contain traversal segments or absolute path markers."
        = false
    ∧ ((write_file_tool (fun _ => none) ["ctx"]
        (.obj [("path", .str "..\\..\\etc\\passwd"), ("content", .str "x")])
        ⟨[]⟩).1).isOk = true :=
  ⟨rfl, by decide, rfl⟩

/-- Witness for C1 at the spec's Scenario C input. -/
theorem c1_write_file_sandbox_witness :
    (∃ msg, (write_file_tool (fun _ => none) ["ctx"]
        (.obj [("path", .str "../../etc/passwd"), ("content", .str "x")])
        ⟨[]⟩).1 = .error msg
      ∧ hasSubStr "escapes the agent context directory" msg = false
      ∧ (write_file_tool (fun _ => none) ["ctx"]
          (.obj [("path", .str "../../etc/passwd"), ("content", .str "x")])
          ⟨[]⟩).2 = ⟨[]⟩)
    ∧ (∀ (args2 : Json) (fs2 : Fs) (q : List String),
        (write_file_tool (fun _ => none) ["ctx"] args2 fs2).2.get q
            ≠ fs2.get q →
        (["ctx"] : List String).isPrefixOf q = true) :=
  c1_write_file_sandbox (fun _ => none) ["ctx"]
    (.obj [("path", .str "../../etc/passwd"), ("content", .str "x")])
    ⟨[]⟩ "../../etc/passwd" "x" rfl rfl (Or.inr (by decide))

/-- `dropPre` strips its exact pattern. -/
theorem dropPre_append (pat rest : List Char) :
    dropPre pat (pat ++ rest) = some rest := by
  induction pat with
  | nil => rfl
  | cons p ps ih => simp [dropPre, ih]

/-- Escaping never produces a raw newline. -/
theorem newline_not_mem_escChar (c : Char) : '\n' ∉ escChar c := by
  unfold escChar
  by_cases h1 : c = '"'
  · subst h1; decide
  · rw [if_neg h1]
    by_cases h2 : c = '\\'
    · subst h2; decide
    · rw [if_neg h2]
      by_cases h3 : c = '\n'
      · subst h3; decide
      · rw [if_neg h3]
        by_cases h4 : c = '\r'
        · subst h4; decide
        · rw [if_neg h4]
          by_cases h5 : c = '\t'
          · subst h5; decide
          · rw [if_neg h5]
            intro hmem
            rw [List.mem_singleton] at hmem
            exact h3 hmem.symm

/-- The string-body parser undoes the escaper, stopping at the closing
quote. -/
theorem parseStrBody_escape :
    ∀ (cs rest : List Char),
      parseStrBody (cs.flatMap escChar ++ '"' :: rest) = some (cs, rest) := by
  intro cs
  induction cs with
  | nil =>
    intro rest
    simp only [List.flatMap_nil, List.nil_append]
    unfold parseStrBody
    rw [if_pos rfl]
  | cons c cs ih =>
    intro rest
    simp only [List.flatMap_cons, List.append_assoc]
    by_cases h1 : c = '"'
    · subst h1
      simp [escChar, parseStrBody, unescChar, ih]
    · by_cases h2 : c = '\\'
      · subst h2
        simp [escChar, parseStrBody, unescChar, ih]
      · by_cases h3 : c = '\n'
        · subst h3
          simp [escChar, parseStrBody, unescChar, ih]
        · by_cases h4 : c = '\r'
          · subst h4
            simp [escChar, parseStrBody, unescChar, ih]
          · by_cases h5 : c = '\t'
            · subst h5
              simp [escChar, parseStrBody, unescChar, ih]
            · rw [escChar, if_neg h1, if_neg h2, if_neg h3, if_neg h4, if_neg h5]
              simp only [List.singleton_append]
              unfold parseStrBody
              rw [if_neg h1, if_neg h2, ih]

/-- Digits of one-digit numbers. -/
theorem digitChar_isDigit (n : Nat) (h : n < 10) :
    (Nat.digitChar n).isDigit = true := by
  interval_cases n <;> decide

/-- `digitVal` inverts `Nat.digitChar` on single digits. -/
theorem digitVal_digitChar (n : Nat) (h : n < 10) :
    digitVal (Nat.digitChar n) = n := by
  interval_cases n <;> decide

/-- `natDigits` is non-empty and consists of digit characters. -/
theorem natDigits_spec (n : Nat) :
    natDigits n ≠ [] ∧ ∀ c ∈ natDigits n, c.isDigit = true := by
  induction n using Nat.strong_induction_on with
  | _ n ih =>
    unfold natDigits
    by_cases h : n < 10
    · rw [dif_pos h]
      refine ⟨by simp, fun c hc => ?_⟩
      rw [List.mem_singleton] at hc
      subst hc
      exact digitChar_isDigit n h
    · rw [dif_neg h]
      obtain ⟨hne, hdig⟩ := ih (n / 10) (Nat.div_lt_self (by omega) (by omega))
      refine ⟨by simp [hne], fun c hc => ?_⟩
      rcases List.mem_append.mp hc with hc1 | hc1
      · exact hdig c hc1
      · rw [List.mem_singleton] at hc1
        subst hc1
        exact digitChar_isDigit _ (Nat.mod_lt n (by omega))

/-- `takeDigits` splits a digit run followed by a non-digit boundary. -/
theorem takeDigits_append (ds rest : List Char)
    (hds : ∀ c ∈ ds, c.isDigit = true)
    (hrest : ∀ c, rest.head? = some c → c.isDigit = false) :
    takeDigits (ds ++ rest) = (ds, rest) := by
  induction ds with
  | nil =>
    cases rest with
    | nil => rfl
    | cons r rs =>
      have hr : r.isDigit = false := hrest r rfl
      simp [takeDigits, hr]
  | cons d ds ih =>
    have hd : d.isDigit = true := hds d (List.mem_cons_self d ds)
    simp only [List.cons_append, takeDigits, hd, if_true, List.append_eq]
    rw [ih (fun c hc => hds c (List.mem_cons_of_mem d hc))]

/-- Folding the digit accumulator over `natDigits`. -/
theorem digitsToNat_natDigits_aux (n : Nat) :
    ∀ (a : Nat),
      (natDigits n).foldl (fun acc c => acc * 10 + digitVal c) a
        = a * 10 ^ (natDigits n).length + n := by
  induction n using Nat.strong_induction_on with
  | _ n ih =>
    intro a
    unfold natDigits
    by_cases h : n < 10
    · rw [dif_pos h]
      simp [digitVal_digitChar n h]
    · rw [dif_neg h]
      rw [List.foldl_append, List.length_append]
      rw [ih (n / 10) (Nat.div_lt_self (by omega) (by omega))]
      simp only [List.foldl_cons, List.foldl_nil, List.length_cons,
        List.length_nil]
      rw [digitVal_digitChar _ (Nat.mod_lt n (by omega))]
      have hpow : 10 ^ (0 + 1) = 10 := by norm_num
      have := Nat.div_add_mod n 10
      rw [pow_add]
      ring_nf
      omega

/-- `digitsToNat` inverts `natDigits`. -/
theorem digitsToNat_natDigits (n : Nat) : digitsToNat (natDigits n) = n := by
  unfold digitsToNat
  rw [digitsToNat_natDigits_aux n 0]
  simp

/-- A digit character is none of the JSON leading literal characters. -/
theorem isDigit_not_special (c : Char) (h : c.isDigit = true) :
    c ≠ 'n' ∧ c ≠ 't' ∧ c ≠ 'f' ∧ c ≠ '"' ∧ c ≠ '[' ∧ c ≠ '{' ∧ c ≠ '-' := by
  refine ⟨?_, ?_, ?_, ?_, ?_, ?_, ?_⟩ <;>
    (intro he; subst he; exact absurd h (by decide))

/-- The parser reads back a printed integer, given a non-digit boundary. -/
theorem parseJs_printInt (n : Nat) (k : Int) (rest : List Char)
    (hrest : ∀ c, rest.head? = some c → c.isDigit = false) :
    parseJs (n + 1) (printInt k ++ rest) = some (.num k, rest) := by
  obtain ⟨hne, hdig⟩ := natDigits_spec k.natAbs
  obtain ⟨d, ds, hds⟩ : ∃ d ds, natDigits k.natAbs = d :: ds := by
    cases hnd : natDigits k.natAbs with
    | nil => exact absurd hnd hne
    | cons d ds => exact ⟨d, ds, rfl⟩
  have htake : takeDigits (natDigits k.natAbs ++ rest)
      = (natDigits k.natAbs, rest) := takeDigits_append _ _ hdig hrest
  unfold printInt
  by_cases hk : k < 0
  · rw [if_pos hk]
    simp only [List.cons_append]
    unfold parseJs
    rw [if_neg (by decide), if_neg (by decide), if_neg (by decide),
      if_neg (by decide), if_neg (by decide), if_neg (by decide),
      if_pos rfl, htake, hds]
    dsimp only
    rw [← hds, digitsToNat_natDigits]
    have hval : (-(k.natAbs : Int)) = k := by omega
    rw [hval]
  · rw [if_neg hk]
    have hd : d.isDigit = true := hdig d (by rw [hds]; exact List.mem_cons_self d ds)
    obtain ⟨hn1, hn2, hn3, hn4, hn5, hn6, hn7⟩ := isDigit_not_special d hd
    rw [hds]
    simp only [List.cons_append]
    unfold parseJs
    rw [if_neg hn1, if_neg hn2, if_neg hn3, if_neg hn4, if_neg hn5,
      if_neg hn6, if_neg hn7, if_pos hd]
    rw [show d :: (ds ++ rest) = (d :: ds) ++ rest from rfl, ← hds, htake, hds]
    dsimp only
    rw [← hds, digitsToNat_natDigits]
    have hval : ((k.natAbs : Int)) = k := by omega
    rw [hval]

/-- A printed array body begins with the printed first element. -/
theorem printItems_eq (v : Json) (vs : List Json) :
    ∃ tail, printItems v vs = printJs v ++ tail := by
  cases vs with
  | nil => exact ⟨[], by unfold printItems; simp⟩
  | cons w ws => exact ⟨',' :: printItems w ws, by conv_lhs => unfold printItems⟩

/-- Every printed JSON value starts with a character that is neither `]`
nor `}`. -/
theorem printJs_head (v : Json) :
    ∃ h tl, printJs v = h :: tl ∧ h ≠ ']' ∧ h ≠ '}' := by
  cases v with
  | null => exact ⟨'n', _, by unfold printJs; rfl, by decide, by decide⟩
  | bool b =>
    cases b with
    | false => exact ⟨'f', _, by unfold printJs; rfl, by decide, by decide⟩
    | true => exact ⟨'t', _, by unfold printJs; rfl, by decide, by decide⟩
  | num k =>
    obtain ⟨hne, hdig⟩ := natDigits_spec k.natAbs
    obtain ⟨d, ds, hds⟩ : ∃ d ds, natDigits k.natAbs = d :: ds := by
      cases hnd : natDigits k.natAbs with
      | nil => exact absurd hnd hne
      | cons d ds => exact ⟨d, ds, rfl⟩
    have hd : d.isDigit = true := hdig d (by rw [hds]; exact List.mem_cons_self d ds)
    by_cases hk : k < 0
    · exact ⟨'-', _, by unfold printJs printInt; rw [if_pos hk], by decide,
        by decide⟩
    · refine ⟨d, ds, ?_, ?_, ?_⟩
      · unfold printJs printInt
        rw [if_neg hk, hds]
      · intro he; subst he; exact absurd hd (by decide)
      · intro he; subst he; exact absurd hd (by decide)
  | str s => exact ⟨'"', _, by unfold printJs; rfl, by decide, by decide⟩
  | arr items =>
    cases items with
    | nil => exact ⟨'[', _, by unfold printJs; rfl, by decide, by decide⟩
    | cons v vs => exact ⟨'[', _, by unfold printJs; rfl, by decide, by decide⟩
  | obj fields =>
    cases fields with
    | nil => exact ⟨'{', _, by unfold printJs; rfl, by decide, by decide⟩
    | cons f fs => exact ⟨'{', _, by unfold printJs; rfl, by decide, by decide⟩

/-- A printed object body starts with the opening quote of its first key. -/
theorem printFields_head (f : String × Json) (fs : List (String × Json)) :
    ∃ tl, printFields f fs = '"' :: tl := by
  obtain ⟨k, v⟩ := f
  cases fs with
  | nil => exact ⟨_, by unfold printFields; rfl⟩
  | cons g gs => exact ⟨_, by unfold printFields; rfl⟩

/-- The parser fuel measures are positive. -/
theorem needJs_pos (v : Json) : 1 ≤ needJs v := by
  cases v with
  | null => unfold needJs; omega
  | bool b => unfold needJs; omega
  | num k => unfold needJs; omega
  | str s => unfold needJs; omega
  | arr items => cases items <;> (unfold needJs; omega)
  | obj fields => cases fields <;> (unfold needJs; omega)

/-- `needItems` is positive. -/
theorem needItems_pos (v : Json) (vs : List Json) : 1 ≤ needItems v vs := by
  cases vs <;> (unfold needItems; omega)

/-- `needFields` is positive. -/
theorem needFields_pos (f : String × Json) (fs : List (String × Json)) :
    1 ≤ needFields f fs := by
  obtain ⟨k, v⟩ := f
  cases fs <;> (unfold needFields; omega)

/-- With sufficient fuel, the parser inverts the printer, leaving any
non-digit-initial tail unconsumed. -/
theorem parse_print_round (n : Nat) :
    (∀ (v : Json) (rest : List Char), needJs v ≤ n →
      (∀ c, rest.head? = some c → c.isDigit = false) →
      parseJs n (printJs v ++ rest) = some (v, rest))
    ∧ (∀ (v : Json) (vs : List Json) (rest : List Char), needItems v vs ≤ n →
      parseItems n (printItems v vs ++ ']' :: rest) = some (v :: vs, rest))
    ∧ (∀ (f : String × Json) (fs : List (String × Json)) (rest : List Char),
      needFields f fs ≤ n →
      parseFields n (printFields f fs ++ '}' :: rest) = some (f :: fs, rest)) := by
  induction n with
  | zero =>
    refine ⟨fun v rest hneed _ => ?_, fun v vs rest hneed => ?_,
      fun f fs rest hneed => ?_⟩
    · exact absurd hneed (by have := needJs_pos v; omega)
    · exact absurd hneed (by have := needItems_pos v vs; omega)
    · exact absurd hneed (by have := needFields_pos f fs; omega)
  | succ n ih =>
    obtain ⟨ihV, ihI, ihF⟩ := ih
    refine ⟨?_, ?_, ?_⟩
    · intro v rest hneed hrest
      cases v with
      | null =>
        have h : printJs .null = ['n', 'u', 'l', 'l'] := by unfold printJs; rfl
        rw [h]
        simp only [List.cons_append, List.nil_append]
        unfold parseJs
        rw [if_pos rfl,
          show ('u' :: 'l' :: 'l' :: rest) = ['u', 'l', 'l'] ++ rest from rfl,
          dropPre_append]
      | bool b =>
        cases b with
        | true =>
          have h : printJs (.bool true) = ['t', 'r', 'u', 'e'] := by
            unfold printJs; rfl
          rw [h]
          simp only [List.cons_append, List.nil_append]
          unfold parseJs
          rw [if_neg (by decide), if_pos rfl,
            show ('r' :: 'u' :: 'e' :: rest) = ['r', 'u', 'e'] ++ rest from rfl,
            dropPre_append]
        | false =>
          have h : printJs (.bool false) = ['f', 'a', 'l', 's', 'e'] := by
            unfold printJs; rfl
          rw [h]
          simp only [List.cons_append, List.nil_append]
          unfold parseJs
          rw [if_neg (by decide), if_neg (by decide), if_pos rfl,
            show ('a' :: 'l' :: 's' :: 'e' :: rest)
              = ['a', 'l', 's', 'e'] ++ rest from rfl,
            dropPre_append]
      | num k =>
        have h : printJs (.num k) = printInt k := by unfold printJs; rfl
        rw [h]
        exact parseJs_printInt n k rest hrest
      | str s =>
        have h : printJs (.str s) = '"' :: s.data.flatMap escChar ++ ['"'] := by
          unfold printJs; rfl
        rw [h]
        simp only [List.cons_append, List.append_assoc, List.singleton_append, List.nil_append]
        unfold parseJs
        rw [if_neg (by decide), if_neg (by decide), if_neg (by decide),
          if_pos rfl, parseStrBody_escape]
      | arr items =>
        cases items with
        | nil =>
          have h : printJs (.arr []) = ['[', ']'] := by unfold printJs; rfl
          rw [h]
          simp only [List.cons_append, List.nil_append]
          unfold parseJs
          rw [if_neg (by decide), if_neg (by decide), if_neg (by decide),
            if_neg (by decide), if_pos rfl]
          simp
        | cons v vs =>
          have h : printJs (.arr (v :: vs)) = '[' :: printItems v vs ++ [']'] := by
            unfold printJs; rfl
          rw [h]
          simp only [List.cons_append, List.append_assoc, List.singleton_append, List.nil_append]
          unfold parseJs
          rw [if_neg (by decide), if_neg (by decide), if_neg (by decide),
            if_neg (by decide), if_pos rfl]
          obtain ⟨tail, hpi⟩ := printItems_eq v vs
          obtain ⟨hch, tl, hh, hne1, hne2⟩ := printJs_head v
          have hhead : (printItems v vs ++ ']' :: rest).head? = some hch := by
            rw [hpi, hh]
            simp
          have hne : ¬ ((printItems v vs ++ ']' :: rest).head? = some ']') := by
            rw [hhead]
            intro hcond
            exact hne1 (Option.some.inj hcond)
          rw [if_neg hne]
          rw [ihI v vs rest (by unfold needJs at hneed; omega)]
      | obj fields =>
        cases fields with
        | nil =>
          have h : printJs (.obj []) = ['{', '}'] := by unfold printJs; rfl
          rw [h]
          simp only [List.cons_append, List.nil_append]
          unfold parseJs
          rw [if_neg (by decide), if_neg (by decide), if_neg (by decide),
            if_neg (by decide), if_neg (by decide), if_pos rfl]
          simp
        | cons f fs =>
          have h : printJs (.obj (f :: fs)) = '{' :: printFields f fs ++ ['}'] := by
            unfold printJs; rfl
          rw [h]
          simp only [List.cons_append, List.append_assoc, List.singleton_append, List.nil_append]
          unfold parseJs
          rw [if_neg (by decide), if_neg (by decide), if_neg (by decide),
            if_neg (by decide), if_neg (by decide), if_pos rfl]
          obtain ⟨tl, hh⟩ := printFields_head f fs
          have hhead : (printFields f fs ++ '}' :: rest).head? = some '"' := by
            rw [hh]
            simp
          have hne : ¬ ((printFields f fs ++ '}' :: rest).head? = some '}') := by
            rw [hhead]
            intro hcond
            exact absurd (Option.some.inj hcond) (by decide)
          rw [if_neg hne]
          rw [ihF f fs rest (by unfold needJs at hneed; omega)]
    · intro v vs rest hneed
      cases vs with
      | nil =>
        have h : printItems v [] = printJs v := by unfold printItems; rfl
        rw [h]
        unfold parseItems
        rw [ihV v (']' :: rest) (by unfold needItems at hneed; omega)
          (fun c hc => by
            simp only [List.head?_cons, Option.some.injEq] at hc
            rw [← hc]
            decide)]
        dsimp only
        rw [if_pos rfl]
      | cons w ws =>
        have h : printItems v (w :: ws) = printJs v ++ ',' :: printItems w ws := by
          conv_lhs => unfold printItems
        rw [h]
        simp only [List.append_assoc, List.cons_append]
        unfold parseItems
        rw [ihV v (',' :: (printItems w ws ++ ']' :: rest))
          (by unfold needItems at hneed; omega)
          (fun c hc => by
            simp only [List.head?_cons, Option.some.injEq] at hc
            rw [← hc]
            decide)]
        dsimp only
        rw [if_neg (by decide), if_pos rfl]
        rw [ihI w ws rest (by unfold needItems at hneed; omega)]
    · intro f fs rest hneed
      obtain ⟨k, v⟩ := f
      cases fs with
      | nil =>
        have h : printFields (k, v) []
            = '"' :: k.data.flatMap escChar ++ '"' :: ':' :: printJs v := by
          unfold printFields; rfl
        rw [h]
        simp only [List.cons_append, List.append_assoc]
        unfold parseFields
        dsimp only
        rw [if_pos rfl, parseStrBody_escape]
        dsimp only
        rw [if_pos rfl]
        rw [ihV v ('}' :: rest) (by unfold needFields at hneed; omega)
          (fun c hc => by
            simp only [List.head?_cons, Option.some.injEq] at hc
            rw [← hc]
            decide)]
        dsimp only
        rw [if_pos rfl]
      | cons g gs =>
        have h : printFields (k, v) (g :: gs)
            = ('"' :: k.data.flatMap escChar ++ '"' :: ':' :: printJs v)
              ++ ',' :: printFields g gs := by
          conv_lhs => unfold printFields
        rw [h]
        simp only [List.cons_append, List.append_assoc]
        unfold parseFields
        dsimp only
        rw [if_pos rfl, parseStrBody_escape]
        dsimp only
        rw [if_pos rfl]
        rw [ihV v (',' :: (printFields g gs ++ '}' :: rest))
          (by unfold needFields at hneed; omega)
          (fun c hc => by
            simp only [List.head?_cons, Option.some.injEq] at hc
            rw [← hc]
            decide)]
        dsimp only
        rw [if_neg (by decide), if_pos rfl]
        rw [ihF g gs rest (by unfold needFields at hneed; omega)]

/-- A printed integer is non-empty. -/
theorem printInt_length_pos (k : Int) : 1 ≤ (printInt k).length := by
  obtain ⟨hne, _⟩ := natDigits_spec k.natAbs
  unfold printInt
  by_cases hk : k < 0
  · rw [if_pos hk]
    simp
  · rw [if_neg hk]
    exact List.length_pos.mpr hne

/-- The parser fuel measure is bounded by the printed length (plus one for
the body measures). -/
theorem need_le_len_aux (n : Nat) :
    (∀ v, needJs v ≤ n → needJs v ≤ (printJs v).length)
    ∧ (∀ v vs, needItems v vs ≤ n →
        needItems v vs ≤ (printItems v vs).length + 1)
    ∧ (∀ f fs, needFields f fs ≤ n →
        needFields f fs ≤ (printFields f fs).length + 1) := by
  induction n with
  | zero =>
    refine ⟨fun v hneed => ?_, fun v vs hneed => ?_, fun f fs hneed => ?_⟩
    · exact absurd hneed (by have := needJs_pos v; omega)
    · exact absurd hneed (by have := needItems_pos v vs; omega)
    · exact absurd hneed (by have := needFields_pos f fs; omega)
  | succ n ih =>
    obtain ⟨ihV, ihI, ihF⟩ := ih
    refine ⟨?_, ?_, ?_⟩
    · intro v hneed
      cases v with
      | null => unfold needJs printJs; simp
      | bool b => cases b <;> (unfold needJs printJs; simp)
      | num k =>
        have := printInt_length_pos k
        unfold needJs printJs
        omega
      | str s => unfold needJs printJs; simp
      | arr items =>
        cases items with
        | nil => unfold needJs printJs; simp
        | cons v vs =>
          unfold needJs at hneed ⊢
          unfold printJs
          have h2 := ihI v vs (by omega)
          simp only [List.length_cons, List.length_append,
            List.length_singleton]
          omega
      | obj fields =>
        cases fields with
        | nil => unfold needJs printJs; simp
        | cons f fs =>
          unfold needJs at hneed ⊢
          unfold printJs
          have h2 := ihF f fs (by omega)
          simp only [List.length_cons, List.length_append,
            List.length_singleton]
          omega
    · intro v vs hneed
      cases vs with
      | nil =>
        unfold needItems at hneed ⊢
        have h2 := ihV v (by omega)
        have h3 : printItems v [] = printJs v := by unfold printItems; rfl
        rw [h3]
        omega
      | cons w ws =>
        unfold needItems at hneed ⊢
        have h2 := ihV v (by omega)
        have h3 := ihI w ws (by omega)
        have h4 : printItems v (w :: ws) = printJs v ++ ',' :: printItems w ws := by
          conv_lhs => unfold printItems
        rw [h4]
        simp only [List.length_append, List.length_cons]
        omega
    · intro f fs hneed
      obtain ⟨k, v⟩ := f
      cases fs with
      | nil =>
        unfold needFields at hneed ⊢
        have h2 := ihV v (by omega)
        have h3 : printFields (k, v) []
            = '"' :: k.data.flatMap escChar ++ '"' :: ':' :: printJs v := by
          unfold printFields; rfl
        rw [h3]
        simp only [List.length_cons, List.length_append]
        omega
      | cons g gs =>
        unfold needFields at hneed ⊢
        have h2 := ihV v (by omega)
        have h3 := ihF g gs (by omega)
        have h4 : printFields (k, v) (g :: gs)
            = ('"' :: k.data.flatMap escChar ++ '"' :: ':' :: printJs v)
              ++ ',' :: printFields g gs := by
          conv_lhs => unfold printFields
        rw [h4]
        simp only [List.length_cons, List.length_append]
        omega

/-- Fuel bounded by printed length suffices. -/
theorem needJs_le_printJs_length (v : Json) :
    needJs v ≤ (printJs v).length :=
  (need_le_len_aux (needJs v)).1 v le_rfl

/-- The compact printer never emits a raw newline (strings are escaped). -/
theorem printJs_no_newline_aux (n : Nat) :
    (∀ v, needJs v ≤ n → '\n' ∉ printJs v)
    ∧ (∀ v vs, needItems v vs ≤ n → '\n' ∉ printItems v vs)
    ∧ (∀ f fs, needFields f fs ≤ n → '\n' ∉ printFields f fs) := by
  induction n with
  | zero =>
    refine ⟨fun v hneed => ?_, fun v vs hneed => ?_, fun f fs hneed => ?_⟩
    · exact absurd hneed (by have := needJs_pos v; omega)
    · exact absurd hneed (by have := needItems_pos v vs; omega)
    · exact absurd hneed (by have := needFields_pos f fs; omega)
  | succ n ih =>
    obtain ⟨ihV, ihI, ihF⟩ := ih
    have hstr : ∀ (s : String), '\n' ∉ s.data.flatMap escChar := by
      intro s hmem
      obtain ⟨c, _, hc⟩ := List.mem_flatMap.mp hmem
      exact newline_not_mem_escChar c hc
    refine ⟨?_, ?_, ?_⟩
    · intro v hneed
      cases v with
      | null => unfold printJs; decide
      | bool b => cases b <;> (unfold printJs; decide)
      | num k =>
        obtain ⟨_, hdig⟩ := natDigits_spec k.natAbs
        unfold printJs printInt
        by_cases hk : k < 0
        · rw [if_pos hk]
          intro hmem
          rcases List.mem_cons.mp hmem with h1 | h1
          · exact absurd h1.symm (by decide)
          · have := hdig _ h1
            exact absurd this (by decide)
        · rw [if_neg hk]
          intro hmem
          have := hdig _ hmem
          exact absurd this (by decide)
      | str s =>
        unfold printJs
        intro hmem
        rcases List.mem_cons.mp hmem with h1 | h1
        · exact absurd h1.symm (by decide)
        · rcases List.mem_append.mp h1 with h2 | h2
          · exact hstr s h2
          · rw [List.mem_singleton] at h2
            exact absurd h2.symm (by decide)
      | arr items =>
        cases items with
        | nil => unfold printJs; decide
        | cons v vs =>
          unfold needJs at hneed
          unfold printJs
          intro hmem
          rcases List.mem_cons.mp hmem with h1 | h1
          · exact absurd h1.symm (by decide)
          · rcases List.mem_append.mp h1 with h2 | h2
            · exact ihI v vs (by omega) h2
            · rw [List.mem_singleton] at h2
              exact absurd h2.symm (by decide)
      | obj fields =>
        cases fields with
        | nil => unfold printJs; decide
        | cons f fs =>
          unfold needJs at hneed
          unfold printJs
          intro hmem
          rcases List.mem_cons.mp hmem with h1 | h1
          · exact absurd h1.symm (by decide)
          · rcases List.mem_append.mp h1 with h2 | h2
            · exact ihF f fs (by omega) h2
            · rw [List.mem_singleton] at h2
              exact absurd h2.symm (by decide)
    · intro v vs hneed
      cases vs with
      | nil =>
        unfold needItems at hneed
        have h3 : printItems v [] = printJs v := by unfold printItems; rfl
        rw [h3]
        exact ihV v (by omega)
      | cons w ws =>
        unfold needItems at hneed
        have h4 : printItems v (w :: ws) = printJs v ++ ',' :: printItems w ws := by
          conv_lhs => unfold printItems
        rw [h4]
        intro hmem
        rcases List.mem_append.mp hmem with h1 | h1
        · exact ihV v (by omega) h1
        · rcases List.mem_cons.mp h1 with h2 | h2
          · exact absurd h2.symm (by decide)
          · exact ihI w ws (by omega) h2
    · intro f fs hneed
      obtain ⟨k, v⟩ := f
      cases fs with
      | nil =>
        unfold needFields at hneed
        have h3 : printFields (k, v) []
            = '"' :: k.data.flatMap escChar ++ '"' :: ':' :: printJs v := by
          unfold printFields; rfl
        rw [h3]
        intro hmem
        rcases List.mem_cons.mp hmem with h1 | h1
        · exact absurd h1.symm (by decide)
        · rcases List.mem_append.mp h1 with h2 | h2
          · exact hstr k h2
          · rcases List.mem_cons.mp h2 with h3 | h3
            · exact absurd h3.symm (by decide)
            · rcases List.mem_cons.mp h3 with h4 | h4
              · exact absurd h4.symm (by decide)
              · exact ihV v (by omega) h4
      | cons g gs =>
        unfold needFields at hneed
        have h4 : printFields (k, v) (g :: gs)
            = ('"' :: k.data.flatMap escChar ++ '"' :: ':' :: printJs v)
              ++ ',' :: printFields g gs := by
          conv_lhs => unfold printFields
        rw [h4]
        intro hmem
        rcases List.mem_append.mp hmem with h1 | h1
        · rcases List.mem_cons.mp h1 with h2 | h2
          · exact absurd h2.symm (by decide)
          · rcases List.mem_append.mp h2 with h3 | h3
            · exact hstr k h3
            · rcases List.mem_cons.mp h3 with h4 | h4
              · exact absurd h4.symm (by decide)
              · rcases List.mem_cons.mp h4 with h5 | h5
                · exact absurd h5.symm (by decide)
                · exact ihV v (by omega) h5
        · rcases List.mem_cons.mp h1 with h2 | h2
          · exact absurd h2.symm (by decide)
          · exact ihF g gs (by omega) h2

/-- The JSON codec for bus entries is lossless. -/
theorem busFromJson_busToJson (e : BusEntry) :
    busFromJson (busToJson e) = some e := by
  obtain ⟨id, ts, ty, f, t, st, c, ⟨i, o⟩⟩ := e
  cases st <;> cases ty <;> rfl

/-- Decoding a freshly serialized journal line recovers the entry. -/
theorem decodeBusEntry_encodeBusEntry (e : BusEntry) :
    decodeBusEntry (encodeBusEntry e) = some e := by
  unfold decodeBusEntry encodeBusEntry
  have h := (parse_print_round ((printJs (busToJson e)).length + 1)).1
    (busToJson e) []
    (by have := needJs_le_printJs_length (busToJson e); omega)
    (fun c hc => by simp at hc)
  rw [List.append_nil] at h
  rw [h]
  exact busFromJson_busToJson e

/-- A list that starts and ends with non-whitespace characters is fixed by
`trimChars`. -/
theorem trimChars_ends (a b : Char) (l : List Char)
    (ha : wsChar a = false) (hb : wsChar b = false) :
    trimChars (a :: (l ++ [b])) = a :: (l ++ [b]) := by
  unfold trimChars trimEnd
  rw [List.dropWhile_cons_of_neg (by rw [ha]; decide)]
  have hrev : (a :: (l ++ [b])).reverse = b :: (l.reverse ++ [a]) := by
    simp
  rw [hrev]
  rw [List.dropWhile_cons_of_neg (by rw [hb]; decide)]
  simp

/-- The shape of a serialized bus entry: `{` body `}`. -/
theorem encodeBusEntry_shape (e : BusEntry) :
    ∃ body, encodeBusEntry e
      = '{' :: (body ++ ['}']) := by
  obtain ⟨fs, hfs⟩ : ∃ fs, busToJson e
      = Json.obj (("id", Json.str e.id) :: fs) := by
    obtain ⟨id, ts, ty, f, t, st, c, ⟨i, o⟩⟩ := e
    cases st with
    | none => exact ⟨_, rfl⟩
    | some sid => exact ⟨_, rfl⟩
  refine ⟨printFields ("id", Json.str e.id) fs, ?_⟩
  unfold encodeBusEntry
  rw [hfs]
  unfold printJs
  rw [List.cons_append]

/-- Serialized bus entries survive trimming and are never blank. -/
theorem encodeBusEntry_trim (e : BusEntry) :
    trimChars (encodeBusEntry e) = encodeBusEntry e
      ∧ (encodeBusEntry e).isEmpty = false := by
  obtain ⟨body, hshape⟩ := encodeBusEntry_shape e
  rw [hshape]
  exact ⟨trimChars_ends '{' '}' body (by decide) (by decide), rfl⟩

/-- A serialized bus entry contains no newline. -/
theorem encodeBusEntry_no_newline (e : BusEntry) :
    '\n' ∉ encodeBusEntry e :=
  (printJs_no_newline_aux (needJs (busToJson e))).1 (busToJson e) le_rfl

/-- Splitting after a newline-free prefix peels off that prefix. -/
theorem splitNl_append (l rest : List Char) (hnl : '\n' ∉ l) :
    splitNl (l ++ '\n' :: rest) = l :: splitNl rest := by
  induction l with
  | nil => simp [splitNl]
  | cons c l' ih =>
    have hc : ¬ c = '\n' := fun he => hnl (he ▸ List.mem_cons_self c l')
    rw [List.cons_append]
    conv_lhs => unfold splitNl
    rw [if_neg hc, ih (fun hm => hnl (List.mem_cons_of_mem c hm))]

/-- `appendEntries` writes each entry followed by a newline, in order. -/
theorem appendEntries_eq (file : List Char) (entries : List BusEntry) :
    appendEntries file entries
      = file ++ entries.flatMap (fun e => encodeBusEntry e ++ ['\n']) := by
  induction entries generalizing file with
  | nil => simp [appendEntries]
  | cons e es ih =>
    unfold appendEntries at ih ⊢
    rw [List.foldl_cons, ih]
    unfold append_team_bus_entry
    simp

/-- Reading back a journal of freshly appended entries recovers them all. -/
theorem parseBusLines_encFile (entries : List BusEntry) :
    parseBusLines
        (splitNl (entries.flatMap fun e => encodeBusEntry e ++ ['\n']))
      = .ok entries := by
  induction entries with
  | nil => rfl
  | cons e es ih =>
    rw [List.flatMap_cons, List.append_assoc, List.singleton_append,
      splitNl_append _ _ (encodeBusEntry_no_newline e)]
    obtain ⟨htrim, hne⟩ := encodeBusEntry_trim e
    unfold parseBusLines
    simp only [htrim, hne]
    rw [if_neg (by decide)]
    rw [decodeBusEntry_encodeBusEntry e, ih]
    rfl

/-- C5: for every finite sequence of bus entries, appending each entry to
the journal (starting from an empty journal) and then reading the journal
returns exactly those entries, in append order, with identical field
values. -/
theorem c5_journal_round_trip (entries : List BusEntry) :
    read_team_bus_entries (appendEntries [] entries) = .ok entries := by
  rw [appendEntries_eq]
  unfold read_team_bus_entries
  rw [List.nil_append]
  exact parseBusLines_encFile entries
